import Mathlib

/-!
# Verification of the `interpolate` repository

A shallow embedding in Lean 4 of the four interpolation engines of the
repository (`LagrangeInterpolator`, `NewtonInterpolator`, `LinearInterpolator`,
`PiecewiseCubicHermiteInterpolator`, plus the `MutableSetInterpolator` base),
together with proofs of the specification claims.

Python floats are modelled by exact rational arithmetic (`ℚ`): every claim
about numerical state ("equal within floating-point rounding, exact under
exact arithmetic") is settled in the exact-arithmetic reading.  Python
exceptions are modelled by `Except`/`Option` error results; a mutating
operation returns the (possibly partially mutated) state together with an
optional error, following the source line by line, so that atomicity is a
real theorem and not a modelling artifact.
-/

set_option maxHeartbeats 1600000

/- Batteries seals the rational-number operations; re-open them so that
concrete engine computations can be settled by `decide`. -/
attribute [local semireducible] Rat.mul Rat.inv Rat.add Rat.sub

/-- Error kinds surfaced by the engines (spec section 7). -/
inductive IErr where
  | insufficientPoints
  | duplicateKey
  | malformedSample
  | indexOutOfRange
deriving DecidableEq, Repr

/-- `prod` from `LagrangeInterpolator.py`: `res = 1.0; for x in nums: res *= x`. -/
def prod (nums : List ℚ) : ℚ := nums.foldl (· * ·) 1

/-- `prod([x - xi for xi in xs])`: the nodal product `Π (x - xi)`. -/
def phi (x : ℚ) (xs : List ℚ) : ℚ := prod (xs.map (fun xi => x - xi))

/-- Python list indexing: a negative index counts from the end; an index
outside `[-n, n)` is an `IndexError`. -/
def pyIdx (n : ℕ) (i : ℤ) : Option ℕ :=
  let j := if i < 0 then i + n else i
  if 0 ≤ j ∧ j < n then some j.toNat else none

/-- `xs.index(x)` / the `x in xs` membership position (first occurrence). -/
def listIndexOf (xs : List ℚ) (x : ℚ) : ℕ := xs.indexOf x

/-! ## `LagrangeInterpolator` -/

/-- State of a `LagrangeInterpolator`: parallel lists `xs`, `ys`, `ws`. -/
structure Lagrange where
  xs : List ℚ
  ys : List ℚ
  ws : List ℚ
deriving DecidableEq, Repr

/-- The barycentric weight for index `i`:
`prod([xi - xj for j, xj in enumerate(xs) if j != i])**-1`. -/
def wAt (xs : List ℚ) (i : ℕ) (xi : ℚ) : ℚ :=
  (prod (((xs.enum.filter (fun p => p.1 ≠ i))).map (fun p => xi - p.2)))⁻¹

/-- The weight list computed by `LagrangeInterpolator.__init__`:
`[prod([xi - xj for j, xj in enumerate(xs) if j != i])**-1 for i, xi in enumerate(xs)]`. -/
def lagWeights (xs : List ℚ) : List ℚ :=
  xs.enum.map (fun p => wAt xs p.1 p.2)

/-- `LagrangeInterpolator.__init__(points)`. -/
def lagInit (points : List (ℚ × ℚ)) : Except IErr Lagrange :=
  if points.length < 2 then .error .insufficientPoints
  else
    let xs := points.map Prod.fst
    if xs.Nodup then .ok ⟨xs, points.map Prod.snd, lagWeights xs⟩
    else .error .duplicateKey

/-- `LagrangeInterpolator.__call__(x)`: exact-node shortcut via `xs.index(x)`,
otherwise the barycentric formula `phi_x * sum((wi/(x-xi))*yi)`. -/
def Lagrange.call (L : Lagrange) (x : ℚ) : ℚ :=
  if x ∈ L.xs then L.ys.getD (listIndexOf L.xs x) 0
  else
    phi x L.xs *
      ((L.ws.zip (L.xs.zip L.ys)).map
        (fun p => (p.1 / (x - p.2.1)) * p.2.2)).sum

/-- The state mutation of `LagrangeInterpolator.append` (after its checks):
`ws[i] /= xs[i] - x_new` for all `i`; append the new weight
`prod([x_new - xj for xj in xs])**-1`, then `x_new`, `y_new`. -/
def Lagrange.appendP (L : Lagrange) (x y : ℚ) : Lagrange :=
  ⟨L.xs ++ [x], L.ys ++ [y],
    (List.zipWith (fun w xi => w / (xi - x)) L.ws L.xs) ++ [(phi x L.xs)⁻¹]⟩

/-- `LagrangeInterpolator.append(point)` with its checks, returning the final
state together with the raised error, if any. -/
def Lagrange.appendOp (L : Lagrange) (p : List ℚ) : Option IErr × Lagrange :=
  if p.length ≠ 2 then (some .malformedSample, L)
  else
    let x := p.getD 0 0
    if x ∈ L.xs then (some .duplicateKey, L)
    else (none, L.appendP x (p.getD 1 0))

/-- `LagrangeInterpolator.__delitem__(index)`.  The source has no explicit
range check: the index is resolved with Python list semantics (negative
indices count from the end). -/
def Lagrange.delOp (L : Lagrange) (index : ℤ) : Option IErr × Lagrange :=
  if L.xs.length ≤ 2 then (some .insufficientPoints, L)
  else
    match pyIdx L.xs.length index with
    | none => (some .indexOutOfRange, L)
    | some i =>
      let xr := L.xs.getD i 0
      let xs₁ := L.xs.eraseIdx i
      (none, ⟨xs₁, L.ys.eraseIdx i,
        List.zipWith (fun w xi => w * (xi - xr)) (L.ws.eraseIdx i) xs₁⟩)

/-- `LagrangeInterpolator.__getitem__(index)`: explicit bounds check
`index < 0 or index >= N`. -/
def Lagrange.getOp (L : Lagrange) (index : ℤ) : Except IErr (ℚ × ℚ) :=
  if index < 0 ∨ (L.xs.length : ℤ) ≤ index then .error .indexOutOfRange
  else .ok (L.xs.getD index.toNat 0, L.ys.getD index.toNat 0)

/-- The state mutation of `LagrangeInterpolator.__setitem__` (after its
checks): for `i ≠ k`, `ws[i] *= xs[i] - xs[k]; ws[i] /= xs[i] - x_new`;
then `ws[k]`, `xs[k]`, `ys[k]` are overwritten. -/
def Lagrange.setP (L : Lagrange) (k : ℕ) (x y : ℚ) : Lagrange :=
  let xold := L.xs.getD k 0
  let ws₁ := (L.ws.zip L.xs).enum.map
    (fun q => if q.1 = k then q.2.1 else q.2.1 * (q.2.2 - xold) / (q.2.2 - x))
  let wk := (prod ((L.xs.enum.filter (fun q => q.1 ≠ k)).map (fun q => x - q.2)))⁻¹
  ⟨L.xs.set k x, L.ys.set k y, ws₁.set k wk⟩

/-- `LagrangeInterpolator.__setitem__(index, point)` with its checks
(bounds, sample shape, duplicate `x` among the other entries). -/
def Lagrange.setOp (L : Lagrange) (index : ℤ) (p : List ℚ) : Option IErr × Lagrange :=
  if index < 0 ∨ (L.xs.length : ℤ) ≤ index then (some .indexOutOfRange, L)
  else if p.length ≠ 2 then (some .malformedSample, L)
  else
    let k := index.toNat
    let x := p.getD 0 0
    if x ∈ (L.xs.enum.filter (fun q => q.1 ≠ k)).map Prod.snd then
      (some .duplicateKey, L)
    else (none, L.setP k x (p.getD 1 0))

/-- The state mutation of `LagrangeInterpolator.insert` (after its checks):
same weight update as `append`, with the new entries placed at `k`. -/
def Lagrange.insertP (L : Lagrange) (k : ℕ) (x y : ℚ) : Lagrange :=
  ⟨L.xs.insertIdx k x, L.ys.insertIdx k y,
    (List.zipWith (fun w xi => w / (xi - x)) L.ws L.xs).insertIdx k (phi x L.xs)⁻¹⟩

/-- `LagrangeInterpolator.insert(index, point)` with its checks. -/
def Lagrange.insertOp (L : Lagrange) (index : ℤ) (p : List ℚ) : Option IErr × Lagrange :=
  if index < 0 ∨ (L.xs.length : ℤ) ≤ index then (some .indexOutOfRange, L)
  else if p.length < 2 then (some .malformedSample, L)
  else
    let x := p.getD 0 0
    if x ∈ L.xs then (some .duplicateKey, L)
    else (none, L.insertP index.toNat x (p.getD 1 0))

/-- The four mutating operations of the Lagrange engine. -/
inductive LagOp where
  | append (p : List ℚ)
  | insert (index : ℤ) (p : List ℚ)
  | delete (index : ℤ)
  | replace (index : ℤ) (p : List ℚ)

/-- Apply one mutating operation, returning the error (if raised) and the
resulting state. -/
def lagStep (L : Lagrange) : LagOp → Option IErr × Lagrange
  | .append p => L.appendOp p
  | .insert i p => L.insertOp i p
  | .delete i => L.delOp i
  | .replace i p => L.setOp i p

/-- Run a sequence of mutating operations, requiring every one to succeed. -/
def lagRun (L : Lagrange) : List LagOp → Option Lagrange
  | [] => some L
  | op :: ops =>
    match lagStep L op with
    | (none, L₁) => lagRun L₁ ops
    | (some _, _) => none

/-! ## `NewtonInterpolator` -/

/-- State of a `NewtonInterpolator`: `xs`, `ys`, `_coef`, `_divided_diff`. -/
structure Newton where
  xs : List ℚ
  ys : List ℚ
  coef : List ℚ
  dd : List ℚ
deriving DecidableEq, Repr

/-- The inner loop of the divided-difference construction: starting from
`new_row = [yi]`, for `j, prev in enumerate(prev_row)` append
`(prev - new_row[-1]) / (xs[i-1-j] - xs[i])`. -/
def newtonRow (xs : List ℚ) (i : ℕ) (yi : ℚ) (prevRow : List ℚ) : List ℚ :=
  prevRow.enum.foldl
    (fun row q =>
      row ++ [(q.2 - row.getLastD 0) / (xs.getD (i - 1 - q.1) 0 - xs.getD i 0)])
    [yi]

/-- The outer construction loop of `NewtonInterpolator.__init__`: builds
(`_coef`, last `new_row`) over `for i in range(n)`. -/
def newtonTable (xs ys : List ℚ) (n : ℕ) : List ℚ × List ℚ :=
  (List.range n).foldl
    (fun acc i =>
      let newRow := newtonRow xs i (ys.getD i 0) acc.2
      (acc.1 ++ [newRow.getLastD 0], newRow))
    ([], [])

/-- `NewtonInterpolator.__init__(points)`. -/
def newtonInit (points : List (ℚ × ℚ)) : Except IErr Newton :=
  if points.length < 2 then .error .insufficientPoints
  else
    let xs := points.map Prod.fst
    if xs.Nodup then
      let ys := points.map Prod.snd
      let t := newtonTable xs ys points.length
      .ok ⟨xs, ys, t.1, t.2⟩
    else .error .duplicateKey

/-- The state mutation of `NewtonInterpolator.append` (after its checks):
append the point, extend the retained divided-difference row by the same
recurrence as construction, append the new last coefficient. -/
def Newton.appendP (st : Newton) (x y : ℚ) : Newton :=
  let index := st.xs.length
  let xs₁ := st.xs ++ [x]
  let ys₁ := st.ys ++ [y]
  let dd₁ := newtonRow xs₁ index (ys₁.getD index 0) st.dd
  ⟨xs₁, ys₁, st.coef ++ [dd₁.getLastD 0], dd₁⟩

/-- `NewtonInterpolator.append(point)` with its checks. -/
def Newton.appendOp (st : Newton) (p : List ℚ) : Option IErr × Newton :=
  if p.length ≠ 2 then (some .malformedSample, st)
  else
    let x := p.getD 0 0
    if x ∈ st.xs then (some .duplicateKey, st)
    else (none, st.appendP x (p.getD 1 0))

/-- A single valid append of a point pair (the duplicate-`x` check of the
source; `none` when the append is rejected). -/
def Newton.tryAppend (st : Newton) (q : ℚ × ℚ) : Option Newton :=
  if q.1 ∈ st.xs then none else some (st.appendP q.1 q.2)

/-- Run a sequence of appends, requiring every one to succeed. -/
def newtonRun (st : Newton) : List (ℚ × ℚ) → Option Newton
  | [] => some st
  | q :: qs =>
    match st.tryAppend q with
    | some st₁ => newtonRun st₁ qs
    | none => none

/-- `NewtonInterpolator.__call__(x)`: nested multiplication
`y = coef[-1]; for i in range(N-2, -1, -1): y = y*(x - xs[i]) + coef[i]`. -/
def Newton.call (st : Newton) (x : ℚ) : ℚ :=
  ((List.range (st.xs.length - 1)).reverse).foldl
    (fun y i => y * (x - st.xs.getD i 0) + st.coef.getD i 0)
    (st.coef.getLastD 0)

/-- `NewtonInterpolator.__getitem__(index)`. -/
def Newton.getOp (st : Newton) (index : ℤ) : Except IErr (ℚ × ℚ) :=
  if index < 0 ∨ (st.xs.length : ℤ) ≤ index then .error .indexOutOfRange
  else .ok (st.xs.getD index.toNat 0, st.ys.getD index.toNat 0)

/-! ## Bisection (Python `bisect` module) -/

/-- The shared binary-search loop of `bisect_left`/`bisect_right`:
`while lo < hi: mid = (lo+hi)//2; if p(a[mid]): lo = mid+1 else: hi = mid`.
The loop is embedded with explicit fuel (the interval width shrinks by at
least one per iteration, so `hi - lo` steps always suffice). -/
def bisectFuel (p : ℚ → Bool) (a : List ℚ) : ℕ → ℕ → ℕ → ℕ
  | 0, lo, _ => lo
  | fuel + 1, lo, hi =>
    if lo < hi then
      let mid := (lo + hi) / 2
      if p (a.getD mid 0) then bisectFuel p a fuel (mid + 1) hi
      else bisectFuel p a fuel lo mid
    else lo

/-- The binary-search loop, entered with enough fuel to run to completion. -/
def bisectGo (p : ℚ → Bool) (a : List ℚ) (lo hi : ℕ) : ℕ :=
  bisectFuel p a (hi - lo) lo hi

/-- `bisect.bisect_left(a, x)`: the loop with test `a[mid] < x`. -/
def bisectLeft (a : List ℚ) (x : ℚ) : ℕ :=
  bisectGo (fun y => decide (y < x)) a 0 a.length

/-- `bisect.bisect(a, x)` (= `bisect_right`): the loop with test
`not (x < a[mid])`. -/
def bisectRight (a : List ℚ) (x : ℚ) : ℕ :=
  bisectGo (fun y => !decide (x < y)) a 0 a.length

/-! ## `MutableSetInterpolator`, `LinearInterpolator` -/

/-- Key-ordered stable sort: the model of Python's stable `sorted(..., key=z[0])`
(insertion sort is stable, like Python's sort). -/
def sortByFst (points : List (ℚ × ℚ)) : List (ℚ × ℚ) :=
  List.insertionSort (fun p q => p.1 ≤ q.1) points

/-- State of a `LinearInterpolator` (through `MutableSetInterpolator`). -/
structure LinearI where
  xs : List ℚ
  ys : List ℚ
deriving DecidableEq, Repr

/-- `LinearInterpolator.__init__(points)`: stable sort by `x`, split into the
parallel arrays, then `MutableSetInterpolator.__init__` checks `N >= 1`.
No duplicate-`x` check is performed (contrary to the class docstring). -/
def linearInit (points : List (ℚ × ℚ)) : Except IErr LinearI :=
  let zipped := sortByFst points
  let xs := zipped.map Prod.fst
  let ys := zipped.map Prod.snd
  if xs.length < 1 then .error .insufficientPoints
  else .ok ⟨xs, ys⟩

/-- `LinearInterpolator.__call__(x)`: `L = bisect_left(xs, x) - 1`; flat
extrapolation below the first node and at/above the last, otherwise the
two-point line formula on the bracketing segment. -/
def LinearI.call (s : LinearI) (x : ℚ) : ℚ :=
  let N := s.xs.length
  let Li : ℤ := (bisectLeft s.xs x : ℤ) - 1
  if Li = -1 then s.ys.getD 0 0
  else if Li = (N : ℤ) - 1 then s.ys.getLastD 0
  else
    let l := Li.toNat
    let r := l + 1
    let a := (s.ys.getD l 0 - s.ys.getD r 0) / (s.xs.getD l 0 - s.xs.getD r 0)
    let b := s.ys.getD l 0 - a * s.xs.getD l 0
    a * x + b

/-- `LinearInterpolator.discard(x)`: remove the sample with that exact `x` if
present (no-op if absent); refuse to go below one remaining sample. -/
def LinearI.discardOp (s : LinearI) (x : ℚ) : Option IErr × LinearI :=
  if x ∈ s.xs then
    if s.xs.length ≤ 1 then (some .insufficientPoints, s)
    else
      let i := listIndexOf s.xs x
      (none, ⟨s.xs.eraseIdx i, s.ys.eraseIdx i⟩)
  else (none, s)

/-- `LinearInterpolator.add(point)`: shape check, duplicate-`x` check, then
`bisect.insort` into `xs` and `ys.insert` at the `bisect.bisect` position. -/
def LinearI.addOp (s : LinearI) (p : List ℚ) : Option IErr × LinearI :=
  if p.length ≠ 2 then (some .malformedSample, s)
  else
    let x := p.getD 0 0
    if x ∈ s.xs then (some .duplicateKey, s)
    else
      let index := bisectRight s.xs x
      (none, ⟨s.xs.insertIdx index x, s.ys.insertIdx index (p.getD 1 0)⟩)

/-! ## `PiecewiseCubicHermiteInterpolator` -/

/-- State of a `PiecewiseCubicHermiteInterpolator`: `xs`, `ys`, `fprime`. -/
structure Hermite where
  xs : List ℚ
  ys : List ℚ
  fp : List ℚ
deriving DecidableEq, Repr

/-- Key-ordered stable sort of the zipped triples `(x, f(x), fprime(x))`. -/
def sortByFst3 (triples : List (ℚ × ℚ × ℚ)) : List (ℚ × ℚ × ℚ) :=
  List.insertionSort (fun p q => p.1 ≤ q.1) triples

/-- `PiecewiseCubicHermiteInterpolator.__init__(xs, f, fprime)`: length check,
stable sort of `zip(xs, f, fprime)` by `x`, split into parallel arrays.
No duplicate-`x` check is performed (contrary to the class docstring). -/
def hermiteInit (xs f fprime : List ℚ) : Except IErr Hermite :=
  if xs.length < 1 then .error .insufficientPoints
  else
    let zipped := sortByFst3 (xs.zip (f.zip fprime))
    .ok ⟨zipped.map (fun z => z.1), zipped.map (fun z => z.2.1),
      zipped.map (fun z => z.2.2)⟩

/-- The cubic Hermite segment formula of
`PiecewiseCubicHermiteInterpolator.__call__`, on the bracket `[xL, xR]`. -/
def hermiteSegment (xL xR fL fR fpL fpR x : ℚ) : ℚ :=
  let h := xR - xL
  let alpha := (3 / h ^ 2) * (fpL + fpR) + (6 / h ^ 3) * (fL - fR)
  ((-fpL / h) * ((x - xR) ^ 2 / 2 - h ^ 2 / 2)) +
    ((fpR / h) * ((x - xL) ^ 2) / 2) +
    (alpha * ((x - xL) ^ 2) * ((x - xL) / 3 - h / 2)) + fL

/-- `PiecewiseCubicHermiteInterpolator.__call__(x)`: segment lookup as in the
linear evaluator, flat extrapolation at the boundary, cubic Hermite segment
inside a bracket. -/
def Hermite.call (s : Hermite) (x : ℚ) : ℚ :=
  let N := s.xs.length
  let Li : ℤ := (bisectLeft s.xs x : ℤ) - 1
  if Li = -1 then s.ys.getD 0 0
  else if Li = (N : ℤ) - 1 then s.ys.getLastD 0
  else
    let l := Li.toNat
    let r := l + 1
    hermiteSegment (s.xs.getD l 0) (s.xs.getD r 0) (s.ys.getD l 0)
      (s.ys.getD r 0) (s.fp.getD l 0) (s.fp.getD r 0) x

/-- `PiecewiseCubicHermiteInterpolator.discard(x)`. -/
def Hermite.discardOp (s : Hermite) (x : ℚ) : Option IErr × Hermite :=
  if x ∈ s.xs then
    if s.xs.length ≤ 1 then (some .insufficientPoints, s)
    else
      let i := listIndexOf s.xs x
      (none, ⟨s.xs.eraseIdx i, s.ys.eraseIdx i, s.fp.eraseIdx i⟩)
  else (none, s)

/-- `PiecewiseCubicHermiteInterpolator.add(point)`: triple shape check,
duplicate-`x` check, then insertion of all three components at the
`bisect.bisect` position. -/
def Hermite.addOp (s : Hermite) (p : List ℚ) : Option IErr × Hermite :=
  if p.length ≠ 3 then (some .malformedSample, s)
  else
    let x := p.getD 0 0
    if x ∈ s.xs then (some .duplicateKey, s)
    else
      let index := bisectRight s.xs x
      (none, ⟨s.xs.insertIdx index x, s.ys.insertIdx index (p.getD 1 0),
        s.fp.insertIdx index (p.getD 2 0)⟩)

/-! ## Basic facts about `prod` and `phi` -/

theorem prod_eq_listProd (l : List ℚ) : prod l = l.prod := by
  rw [prod, List.prod_eq_foldl]

theorem phi_nil (x : ℚ) : phi x [] = 1 := rfl

theorem phi_cons (x a : ℚ) (l : List ℚ) : phi x (a :: l) = (x - a) * phi x l := by
  simp [phi, prod_eq_listProd]

theorem phi_append (x : ℚ) (l₁ l₂ : List ℚ) :
    phi x (l₁ ++ l₂) = phi x l₁ * phi x l₂ := by
  simp [phi, prod_eq_listProd]

theorem phi_concat (x a : ℚ) (l : List ℚ) :
    phi x (l ++ [a]) = phi x l * (x - a) := by
  rw [phi_append, phi_cons, phi_nil, mul_one]

theorem phi_perm (x : ℚ) {l₁ l₂ : List ℚ} (h : l₁.Perm l₂) :
    phi x l₁ = phi x l₂ := by
  simp only [phi, prod_eq_listProd]
  exact (h.map _).prod_eq

theorem phi_eq_zero (x : ℚ) {l : List ℚ} (h : x ∈ l) : phi x l = 0 := by
  rw [phi, prod_eq_listProd]
  exact List.prod_eq_zero (List.mem_map.2 ⟨x, h, sub_self x⟩)

theorem phi_ne_zero (x : ℚ) {l : List ℚ} (h : x ∉ l) : phi x l ≠ 0 := by
  rw [phi, prod_eq_listProd]
  refine List.prod_ne_zero (fun h0 => ?_)
  rcases List.mem_map.1 h0 with ⟨a, ha, ha0⟩
  rw [sub_eq_zero] at ha0
  exact h (ha0 ▸ ha)

/-! ## The enumerate-filter idiom

`[e for j, e in enumerate(l) if j != i]` is `l` with index `i` removed. -/

theorem enumFrom_filter_ne_map_snd (l : List ℚ) (n i : ℕ) :
    ((l.enumFrom n).filter (fun p => p.1 ≠ n + i)).map Prod.snd = l.eraseIdx i := by
  induction l generalizing n i with
  | nil => rfl
  | cons a t ih =>
    cases i with
    | zero =>
      rw [List.enumFrom_cons,
        List.filter_cons_of_neg (by simp), List.eraseIdx_cons_zero]
      have h2 : ∀ p ∈ t.enumFrom (n + 1), (fun p : ℕ × ℚ => decide (p.1 ≠ n + 0)) p = true := by
        intro p hp
        have := (List.mem_enumFrom hp).1
        simp only [decide_eq_true_eq]
        omega
      rw [List.filter_eq_self.2 h2]
      exact List.enumFrom_map_snd (n + 1) t
    | succ j =>
      rw [List.enumFrom_cons,
        List.filter_cons_of_pos (by simp only [decide_eq_true_eq]; omega),
        List.eraseIdx_cons_succ, List.map_cons]
      have h2 : ((t.enumFrom (n + 1)).filter (fun p => p.1 ≠ (n + 1) + j)).map Prod.snd =
          t.eraseIdx j := ih (n + 1) j
      rw [show n + (j + 1) = (n + 1) + j by omega]
      rw [h2]

theorem enum_filter_ne_map_snd (l : List ℚ) (i : ℕ) :
    ((l.enum.filter (fun p => p.1 ≠ i)).map Prod.snd = l.eraseIdx i) := by
  have := enumFrom_filter_ne_map_snd l 0 i
  simpa [List.enum] using this

theorem wAt_eq_phi_eraseIdx (xs : List ℚ) (i : ℕ) (xi : ℚ) :
    wAt xs i xi = (phi xi (xs.eraseIdx i))⁻¹ := by
  have h := enum_filter_ne_map_snd xs i
  rw [wAt, phi, ← h, List.map_map]
  rfl

/-! ## The semantic weight `invW` -/

/-- The barycentric weight of the node with value `v`, as a function of the
multiset of stored `x`-values: `1 / Π (v - u)` over the other stored values. -/
def invW (xs : List ℚ) (v : ℚ) : ℚ := (phi v (xs.erase v))⁻¹

theorem invW_perm {xs xs' : List ℚ} (h : xs.Perm xs') (v : ℚ) :
    invW xs v = invW xs' v := by
  rw [invW, invW, phi_perm v (h.erase v)]

theorem nodup_erase_eq_eraseIdx {xs : List ℚ} (hnd : xs.Nodup) :
    ∀ i, i < xs.length → xs.erase (xs.getD i 0) = xs.eraseIdx i := by
  induction xs with
  | nil => intro i hi; simp at hi
  | cons a t ih =>
    intro i hi
    cases i with
    | zero => simp
    | succ j =>
      have hj : j < t.length := by simpa using hi
      have hmem : t.getD j 0 ∈ t := by
        rw [List.getD_eq_getElem?_getD, List.getElem?_eq_getElem hj]
        exact List.getElem_mem hj
      have hne : a ≠ t.getD j 0 := fun h => (List.nodup_cons.1 hnd).1 (h ▸ hmem)
      simp only [List.getD_cons_succ, List.eraseIdx_cons_succ]
      rw [List.erase_cons_tail (by simp only [beq_iff_eq]; exact hne)]
      rw [ih (List.nodup_cons.1 hnd).2 j hj]

theorem lagWeights_length (xs : List ℚ) : (lagWeights xs).length = xs.length := by
  simp [lagWeights]

theorem lagWeights_eq_map_invW {xs : List ℚ} (hnd : xs.Nodup) :
    lagWeights xs = xs.map (invW xs) := by
  apply List.ext_getElem (by simp [lagWeights])
  intro i h1 h2
  have hi : i < xs.length := by simpa using h2
  simp only [lagWeights, List.getElem_map, List.getElem_enum]
  rw [wAt_eq_phi_eraseIdx]
  have hgd : xs.getD i 0 = xs[i] := by
    rw [List.getD_eq_getElem?_getD, List.getElem?_eq_getElem hi]; rfl
  rw [invW, ← hgd, nodup_erase_eq_eraseIdx hnd i hi, hgd]

/-! ## Small list helpers -/

theorem getD_eq_getElem (l : List ℚ) {i : ℕ} (h : i < l.length) (d : ℚ) :
    l.getD i d = l[i] := by
  rw [List.getD_eq_getElem?_getD, List.getElem?_eq_getElem h]
  rfl

theorem map_insertIdx (f : ℚ → ℚ) (l : List ℚ) (k : ℕ) (x : ℚ) :
    (l.insertIdx k x).map f = (l.map f).insertIdx k (f x) := by
  induction l generalizing k with
  | nil => cases k <;> rfl
  | cons a t ih =>
    cases k with
    | zero => rfl
    | succ j => simp [List.insertIdx_succ_cons, ih]

theorem eraseIdx_map (f : ℚ → ℚ) (l : List ℚ) (k : ℕ) :
    (l.map f).eraseIdx k = (l.eraseIdx k).map f := by
  induction l generalizing k with
  | nil => rfl
  | cons a t ih =>
    cases k with
    | zero => rfl
    | succ j => simp [List.eraseIdx_cons_succ, ih]

theorem perm_getD_cons_eraseIdx (xs : List ℚ) (i : ℕ) (hi : i < xs.length) :
    xs.Perm (xs.getD i 0 :: xs.eraseIdx i) := by
  conv_lhs => rw [← List.take_append_drop i xs, List.drop_eq_getElem_cons hi]
  rw [List.eraseIdx_eq_take_drop_succ, getD_eq_getElem xs hi]
  exact List.perm_middle

theorem mem_eraseIdx_of_ne (xs : List ℚ) {i k : ℕ} (hi : i < xs.length)
    (hik : i ≠ k) : xs[i] ∈ xs.eraseIdx k := by
  rcases Nat.lt_or_ge i k with h | h
  · have hlen : i < (xs.eraseIdx k).length := by
      rw [List.length_eraseIdx]
      split <;> omega
    have := List.getElem_eraseIdx_of_lt xs k i hlen h
    exact this ▸ List.getElem_mem hlen
  · have hk : k < i := Nat.lt_of_le_of_ne h (fun h' => hik h'.symm)
    have hlen : i - 1 < (xs.eraseIdx k).length := by
      rw [List.length_eraseIdx]
      split <;> omega
    refine List.mem_iff_getElem.2 ⟨i - 1, hlen, ?_⟩
    rw [List.getElem_eraseIdx_of_ge xs k (i - 1) hlen (by omega)]
    simp only [show i - 1 + 1 = i from by omega]

theorem zipWith_map_self (f : ℚ → ℚ → ℚ) (g : ℚ → ℚ) (l : List ℚ) :
    List.zipWith f (l.map g) l = l.map (fun a => f (g a) a) := by
  rw [List.zipWith_map_left, List.zipWith_same]

/-! ## Weight-update lemmas for the Lagrange mutators -/

theorem invW_concat_mem {xs : List ℚ} {v : ℚ} (hv : v ∈ xs) (x : ℚ) :
    invW (xs ++ [x]) v = invW xs v * (v - x)⁻¹ := by
  rw [invW, invW, List.erase_append_left _ hv, phi_concat, mul_inv]

theorem invW_concat_self {xs : List ℚ} {x : ℚ} (hx : x ∉ xs) :
    invW (xs ++ [x]) x = (phi x xs)⁻¹ := by
  rw [invW, List.erase_append_right _ hx]
  simp

theorem invW_cons_perm_mem {xs xs' : List ℚ} {x : ℚ} (hperm : xs'.Perm (x :: xs))
    {v : ℚ} (hv : v ∈ xs) (hvx : v ≠ x) :
    invW xs' v = invW xs v * (v - x)⁻¹ := by
  rw [invW_perm hperm, invW, invW,
    List.erase_cons_tail (by simp only [beq_iff_eq]; exact fun h => hvx h.symm),
    phi_cons, mul_inv, mul_comm ((v - x)⁻¹)]

theorem invW_cons_perm_self {xs xs' : List ℚ} {x : ℚ} (hperm : xs'.Perm (x :: xs)) :
    invW xs' x = (phi x xs)⁻¹ := by
  rw [invW_perm hperm, invW, List.erase_cons_head]

theorem invW_remove_perm {xs M : List ℚ} {xr : ℚ} (hperm : xs.Perm (xr :: M))
    (hnd : xs.Nodup) {v : ℚ} (hv : v ∈ M) :
    invW xs v * (v - xr) = invW M v := by
  have hnd' : (xr :: M).Nodup := hperm.nodup_iff.1 hnd
  have hvx : v ≠ xr := fun h => (List.nodup_cons.1 hnd').1 (h ▸ hv)
  rw [invW_perm hperm, invW, invW,
    List.erase_cons_tail (by simp only [beq_iff_eq]; exact fun h => hvx h.symm),
    phi_cons, mul_inv]
  rw [mul_comm ((v - xr)⁻¹), mul_assoc, inv_mul_cancel₀ (sub_ne_zero.2 hvx), mul_one]

/-! ## The Lagrange engine invariant -/

/-- Invariant of a reachable Lagrange engine state: distinct nodes, aligned
arrays of at least two samples, and weights equal to the barycentric weights
of the current nodes. -/
def LagInv (L : Lagrange) : Prop :=
  L.xs.Nodup ∧ L.ys.length = L.xs.length ∧ 2 ≤ L.xs.length ∧
    L.ws = L.xs.map (invW L.xs)

theorem lagInit_ok_iff {pts : List (ℚ × ℚ)} {L : Lagrange} :
    lagInit pts = .ok L ↔
      2 ≤ pts.length ∧ (pts.map Prod.fst).Nodup ∧
        L = ⟨pts.map Prod.fst, pts.map Prod.snd, lagWeights (pts.map Prod.fst)⟩ := by
  simp only [lagInit]
  split
  · next h => simp only [false_iff, reduceCtorEq, false_and]; omega
  · next h =>
    split
    · next hnd =>
      constructor
      · intro he
        injection he with he
        exact ⟨by omega, hnd, he.symm⟩
      · rintro ⟨-, -, rfl⟩
        rfl
    · next hnd => simp only [reduceCtorEq, false_iff]; tauto

theorem lagInit_inv {pts : List (ℚ × ℚ)} {L : Lagrange} (h : lagInit pts = .ok L) :
    LagInv L := by
  obtain ⟨hlen, hnd, rfl⟩ := lagInit_ok_iff.1 h
  exact ⟨hnd, by simp, by simpa using hlen, lagWeights_eq_map_invW hnd⟩

theorem appendP_inv {L : Lagrange} (h : LagInv L) {x : ℚ} (hx : x ∉ L.xs) (y : ℚ) :
    LagInv (L.appendP x y) := by
  obtain ⟨hnd, hlen, hN, hws⟩ := h
  have hnd' : (L.xs ++ [x]).Nodup := by
    rw [List.nodup_append]
    exact ⟨hnd, List.nodup_singleton x, by simpa [List.disjoint_singleton] using hx⟩
  refine ⟨hnd', by simp [Lagrange.appendP, hlen], ?_, ?_⟩
  · simp only [Lagrange.appendP, List.length_append, List.length_singleton]
    omega
  · show (List.zipWith (fun w xi => w / (xi - x)) L.ws L.xs) ++ [(phi x L.xs)⁻¹] =
      (L.xs ++ [x]).map (invW (L.xs ++ [x]))
    rw [List.map_append, hws, zipWith_map_self]
    congr 1
    · refine List.map_congr_left (fun v hv => ?_)
      rw [invW_concat_mem hv x, div_eq_mul_inv]
    · simp [invW_concat_self hx]

theorem insertP_inv {L : Lagrange} (h : LagInv L) {x : ℚ} (hx : x ∉ L.xs) {k : ℕ}
    (hk : k ≤ L.xs.length) (y : ℚ) : LagInv (L.insertP k x y) := by
  obtain ⟨hnd, hlen, hN, hws⟩ := h
  have hperm : (L.xs.insertIdx k x).Perm (x :: L.xs) := List.perm_insertIdx x L.xs hk
  have hnd' : (L.xs.insertIdx k x).Nodup :=
    hperm.nodup_iff.2 (List.nodup_cons.2 ⟨hx, hnd⟩)
  refine ⟨hnd', ?_, ?_, ?_⟩
  · show (L.ys.insertIdx k y).length = (L.xs.insertIdx k x).length
    rw [List.length_insertIdx k L.ys (by omega), List.length_insertIdx k L.xs hk, hlen]
  · show 2 ≤ (L.xs.insertIdx k x).length
    rw [List.length_insertIdx k L.xs hk]
    omega
  · show (List.zipWith (fun w xi => w / (xi - x)) L.ws L.xs).insertIdx k (phi x L.xs)⁻¹ =
      (L.xs.insertIdx k x).map (invW (L.xs.insertIdx k x))
    rw [hws, zipWith_map_self, map_insertIdx]
    congr 1
    · exact (invW_cons_perm_self hperm).symm
    · refine List.map_congr_left (fun v hv => ?_)
      rw [invW_cons_perm_mem hperm hv (fun hvx => hx (hvx ▸ hv)), div_eq_mul_inv]

theorem delP_inv {L : Lagrange} (h : LagInv L) {i : ℕ} (hi : i < L.xs.length)
    (hN : 3 ≤ L.xs.length) :
    LagInv ⟨L.xs.eraseIdx i, L.ys.eraseIdx i,
      List.zipWith (fun w xi => w * (xi - L.xs.getD i 0))
        (L.ws.eraseIdx i) (L.xs.eraseIdx i)⟩ := by
  obtain ⟨hnd, hlen, _, hws⟩ := h
  have hperm := perm_getD_cons_eraseIdx L.xs i hi
  have hnd' : (L.xs.eraseIdx i).Nodup := (List.eraseIdx_sublist L.xs i).nodup hnd
  refine ⟨hnd', ?_, ?_, ?_⟩
  · show (L.ys.eraseIdx i).length = (L.xs.eraseIdx i).length
    rw [List.length_eraseIdx, List.length_eraseIdx, hlen]
  · show 2 ≤ (L.xs.eraseIdx i).length
    rw [List.length_eraseIdx]
    simp only [hi, if_pos]
    omega
  · show List.zipWith _ (L.ws.eraseIdx i) (L.xs.eraseIdx i) = _
    rw [hws, eraseIdx_map, zipWith_map_self]
    refine List.map_congr_left (fun v hv => ?_)
    exact invW_remove_perm hperm hnd hv

theorem setP_wk (L : Lagrange) (k : ℕ) (x : ℚ) :
    (prod ((L.xs.enum.filter (fun q => q.1 ≠ k)).map (fun q => x - q.2)))⁻¹ =
      (phi x (L.xs.eraseIdx k))⁻¹ := by
  have h := enum_filter_ne_map_snd L.xs k
  rw [phi, ← h, List.map_map]
  rfl

theorem perm_set_cons_eraseIdx (xs : List ℚ) (k : ℕ) (hk : k < xs.length) (x : ℚ) :
    (xs.set k x).Perm (x :: xs.eraseIdx k) := by
  rw [List.set_eq_take_append_cons_drop, if_pos hk, List.eraseIdx_eq_take_drop_succ]
  exact List.perm_middle

theorem setP_inv {L : Lagrange} (h : LagInv L) {k : ℕ} (hk : k < L.xs.length)
    {x : ℚ} (hx : x ∉ L.xs.eraseIdx k) (y : ℚ) : LagInv (L.setP k x y) := by
  obtain ⟨hnd, hlen, hN, hws⟩ := h
  have hpermOld : L.xs.Perm (L.xs.getD k 0 :: L.xs.eraseIdx k) :=
    perm_getD_cons_eraseIdx L.xs k hk
  have hpermNew : (L.xs.set k x).Perm (x :: L.xs.eraseIdx k) :=
    perm_set_cons_eraseIdx L.xs k hk x
  have hndM : (L.xs.eraseIdx k).Nodup := (List.eraseIdx_sublist L.xs k).nodup hnd
  have hnd' : (L.xs.set k x).Nodup :=
    hpermNew.nodup_iff.2 (List.nodup_cons.2 ⟨hx, hndM⟩)
  have hwslen : L.ws.length = L.xs.length := by rw [hws, List.length_map]
  refine ⟨hnd', by simp [Lagrange.setP, hlen], by simpa [Lagrange.setP] using hN, ?_⟩
  show (((L.ws.zip L.xs).enum.map
      (fun q => if q.1 = k then q.2.1
        else q.2.1 * (q.2.2 - L.xs.getD k 0) / (q.2.2 - x))).set k
        (prod ((L.xs.enum.filter (fun q => q.1 ≠ k)).map (fun q => x - q.2)))⁻¹) =
    (L.xs.set k x).map (invW (L.xs.set k x))
  have hlen1 : ((L.ws.zip L.xs).enum.map
      (fun q : ℕ × ℚ × ℚ => if q.1 = k then q.2.1
        else q.2.1 * (q.2.2 - L.xs.getD k 0) / (q.2.2 - x))).length = L.xs.length := by
    simp [hwslen]
  apply List.ext_getElem
  · simp [hlen1, hwslen]
  intro i h1 h2
  have hi : i < L.xs.length := by simpa using h2
  have hizip : i < ((L.ws.zip L.xs).enum).length := by simp [hwslen, hi]
  rcases eq_or_ne i k with rfl | hik
  · rw [List.getElem_set_self (by simp only [List.length_set, hlen1]; exact hi)]
    rw [List.getElem_map, List.getElem_set_self (by simpa using hi)]
    rw [setP_wk, invW_cons_perm_self hpermNew]
  · rw [List.getElem_set_ne (fun hkk => hik hkk.symm), List.getElem_map,
      List.getElem_enum, List.getElem_map,
      List.getElem_set_ne (fun hkk => hik hkk.symm)]
    have hiw : i < L.ws.length := by omega
    have hizz : i < (L.ws.zip L.xs).length := by simpa using hizip
    have hzip : ((L.ws.zip L.xs))[i] = (L.ws[i], L.xs[i]) :=
      List.getElem_zip
    rw [hzip]
    simp only [hik, if_false]
    have hwsi : L.ws[i] = invW L.xs (L.xs[i]) := by
      rw [List.getElem_of_eq hws (by omega), List.getElem_map]
    rw [hwsi]
    have hvM : L.xs[i] ∈ L.xs.eraseIdx k := mem_eraseIdx_of_ne L.xs hi hik
    have hvx : L.xs[i] ≠ x := fun hvx => hx (hvx ▸ hvM)
    rw [div_eq_mul_inv, invW_remove_perm hpermOld hnd hvM,
      ← invW_cons_perm_mem hpermNew hvM hvx]

theorem pyIdx_some_iff {n : ℕ} {i : ℤ} {j : ℕ} :
    pyIdx n i = some j ↔
      -(n : ℤ) ≤ i ∧ i < n ∧ (j : ℤ) = (if i < 0 then i + n else i) := by
  simp only [pyIdx]
  by_cases hneg : i < 0
  · simp only [if_pos hneg]
    constructor
    · intro h
      split at h
      · next hc =>
        injection h with h
        omega
      · exact absurd h (by simp)
    · rintro ⟨h1, h2, h3⟩
      rw [if_pos (by omega)]
      congr 1
      omega
  · simp only [if_neg hneg]
    constructor
    · intro h
      split at h
      · next hc =>
        injection h with h
        omega
      · exact absurd h (by simp)
    · rintro ⟨h1, h2, h3⟩
      rw [if_pos (by omega)]
      congr 1
      omega

theorem pyIdx_none_iff {n : ℕ} {i : ℤ} :
    pyIdx n i = none ↔ i < -(n : ℤ) ∨ (n : ℤ) ≤ i := by
  simp only [pyIdx]
  by_cases hneg : i < 0
  · rw [if_pos hneg]
    split
    · next hc => simp only [reduceCtorEq, false_iff]; omega
    · next hc => simp only [true_iff]; omega
  · rw [if_neg hneg]
    split
    · next hc => simp only [reduceCtorEq, false_iff]; omega
    · next hc => simp only [true_iff]; omega

/-- Every mutating Lagrange operation preserves the engine invariant (a failed
operation leaves the state untouched). -/
theorem lagStep_inv {L : Lagrange} (h : LagInv L) (op : LagOp) :
    LagInv (lagStep L op).2 := by
  cases op with
  | append p =>
    show LagInv (L.appendOp p).2
    simp only [Lagrange.appendOp]
    split
    · exact h
    · split
      · exact h
      · next hmem => exact appendP_inv h hmem _
  | insert i p =>
    show LagInv (L.insertOp i p).2
    simp only [Lagrange.insertOp]
    split
    · exact h
    · next hbnd =>
      split
      · exact h
      · split
        · exact h
        · next hmem =>
          push_neg at hbnd
          exact insertP_inv h hmem (by omega) _
  | delete i =>
    show LagInv (L.delOp i).2
    simp only [Lagrange.delOp]
    split
    · exact h
    · next hN =>
      split
      · exact h
      · next j hj =>
        have hjlt : j < L.xs.length := by
          have := pyIdx_some_iff.1 hj
          omega
        exact delP_inv h hjlt (by omega)
  | replace i p =>
    show LagInv (L.setOp i p).2
    simp only [Lagrange.setOp]
    split
    · exact h
    · next hbnd =>
      split
      · exact h
      · split
        · exact h
        · next hmem =>
          push_neg at hbnd
          refine setP_inv h (k := i.toNat) (by omega) ?_ _
          intro hx
          refine hmem ?_
          rw [← enum_filter_ne_map_snd L.xs i.toNat] at hx
          exact hx

theorem lagRun_inv {ops : List LagOp} {L L' : Lagrange} (h : LagInv L)
    (hr : lagRun L ops = some L') : LagInv L' := by
  induction ops generalizing L with
  | nil =>
    simp only [lagRun, Option.some.injEq] at hr
    exact hr ▸ h
  | cons op ops ih =>
    unfold lagRun at hr
    split at hr
    · next L₁ heq =>
      have h1 : LagInv L₁ := by
        have := lagStep_inv h op
        rw [heq] at this
        exact this
      exact ih h1 hr
    · exact absurd hr (by simp)

/-- Decidable equality on `Except`, needed to evaluate concrete runs. -/
instance instDecidableEqExcept {e a : Type} [DecidableEq e] [DecidableEq a] :
    DecidableEq (Except e a) := fun x y =>
  match x, y with
  | .error u, .error v =>
    if h : u = v then isTrue (by rw [h]) else isFalse (fun hh => h (by injection hh))
  | .error _, .ok _ => isFalse (fun hh => by injection hh)
  | .ok _, .error _ => isFalse (fun hh => by injection hh)
  | .ok u, .ok v =>
    if h : u = v then isTrue (by rw [h]) else isFalse (fun hh => h (by injection hh))

/-- Claim C1: for the Lagrange engine, after any finite sequence of valid append,
insert, delete and replace operations starting from a valid construction,
the stored weight array equals the weight array a fresh construction from
the resulting point sequence would compute (exactly, in exact arithmetic). -/
theorem lagrange_incremental_weights_eq_fresh {pts : List (ℚ × ℚ)}
    {ops : List LagOp} {L₀ L : Lagrange} (h0 : lagInit pts = .ok L₀)
    (hr : lagRun L₀ ops = some L) :
    L.ws = lagWeights L.xs ∧
      lagInit (L.xs.zip L.ys) = .ok ⟨L.xs, L.ys, lagWeights L.xs⟩ := by
  obtain ⟨hnd, hlen, hN, hws⟩ := lagRun_inv (lagInit_inv h0) hr
  have hw : L.ws = lagWeights L.xs := by
    rw [hws, lagWeights_eq_map_invW hnd]
  refine ⟨hw, ?_⟩
  rw [lagInit_ok_iff]
  refine ⟨by rw [List.length_zip]; omega, ?_, ?_⟩
  · rw [List.map_fst_zip _ _ (le_of_eq hlen.symm)]
    exact hnd
  · rw [List.map_fst_zip _ _ (le_of_eq hlen.symm),
      List.map_snd_zip _ _ (le_of_eq hlen)]

-- Witness for C1 at a concrete run: construction on two points followed by
-- one append, one insert, one replace and one delete, all valid.
theorem lagrange_incremental_weights_eq_fresh_witness :
    lagInit [((0 : ℚ), (1 : ℚ)), (1, 3)] =
        .ok ⟨[0, 1], [1, 3], [-1, 1]⟩ ∧
      lagRun ⟨[0, 1], [1, 3], [-1, 1]⟩
          [.append [2, 2], .insert 1 [4, 5], .replace 0 [6, 7], .delete 2] =
        some ⟨[6, 4, 2], [7, 5, 2], [1/8, -1/4, 1/8]⟩ ∧
      ([1/8, -1/4, (1/8 : ℚ)] = lagWeights [6, 4, 2] ∧
        lagInit ([(6 : ℚ), 4, 2].zip [(7 : ℚ), 5, 2]) =
          .ok ⟨[6, 4, 2], [7, 5, 2], lagWeights [6, 4, 2]⟩) :=
  ⟨by decide, by decide,
    @lagrange_incremental_weights_eq_fresh [((0 : ℚ), (1 : ℚ)), (1, 3)]
      [.append [2, 2], .insert 1 [4, 5], .replace 0 [6, 7], .delete 2]
      ⟨[0, 1], [1, 3], [-1, 1]⟩ ⟨[6, 4, 2], [7, 5, 2], [1/8, -1/4, 1/8]⟩
      (by decide) (by decide)⟩

/-- Claim C10: Lagrange evaluation and weight maintenance never divide by
zero: off-node barycentric divisors are nonzero, every product whose
reciprocal is taken (at construction, append, insert, replace) is nonzero
when the stored nodes are distinct and the new node is fresh, and every
operation keeps the stored `x`-values pairwise distinct. -/
theorem lagrange_division_safety :
    (∀ (xs : List ℚ) (x : ℚ), x ∉ xs → ∀ xi ∈ xs, x - xi ≠ 0) ∧
    (∀ xs : List ℚ, xs.Nodup → ∀ i, i < xs.length →
      phi (xs.getD i 0) (xs.eraseIdx i) ≠ 0) ∧
    (∀ (xs : List ℚ) (x : ℚ), x ∉ xs → phi x xs ≠ 0) ∧
    (∀ (L : Lagrange), LagInv L → ∀ op : LagOp, (lagStep L op).2.xs.Nodup) := by
  refine ⟨?_, ?_, ?_, ?_⟩
  · intro xs x hx xi hxi h
    exact hx (by rwa [sub_eq_zero.1 h])
  · intro xs hnd i hi
    refine phi_ne_zero _ (fun hmem => ?_)
    rw [← nodup_erase_eq_eraseIdx hnd i hi] at hmem
    have : xs.getD i 0 ∈ xs := by
      rw [getD_eq_getElem xs hi]
      exact List.getElem_mem hi
    exact hnd.not_mem_erase hmem
  · exact fun xs x hx => phi_ne_zero x hx
  · exact fun L h op => (lagStep_inv h op).1

-- Witness for C10 at concrete inputs.
theorem lagrange_division_safety_witness :
    ((3 : ℚ) - 0 ≠ 0) ∧
      phi (([0, 1] : List ℚ).getD 0 0) (([0, 1] : List ℚ).eraseIdx 0) ≠ 0 ∧
      phi (3 : ℚ) [0, 1] ≠ 0 ∧
      (lagStep ⟨[0, 1], [1, 3], [-1, 1]⟩ (.append [2, 2])).2.xs.Nodup :=
  ⟨lagrange_division_safety.1 [0, 1] 3 (by decide) 0 (by decide),
    lagrange_division_safety.2.1 [0, 1] (by decide) 0 (by decide),
    lagrange_division_safety.2.2.1 [0, 1] 3 (by decide),
    lagrange_division_safety.2.2.2 ⟨[0, 1], [1, 3], [-1, 1]⟩
      ⟨by decide, by decide, by decide, by decide⟩ (.append [2, 2])⟩

/-- Claim C7: every mutating operation of every engine is whole-operation
atomic: whenever it reports an error, the resulting state is exactly the
state before the operation. -/
theorem mutators_atomic :
    (∀ (L : Lagrange) (op : LagOp), (lagStep L op).1 ≠ none → (lagStep L op).2 = L) ∧
    (∀ (st : Newton) (p : List ℚ), (st.appendOp p).1 ≠ none → (st.appendOp p).2 = st) ∧
    (∀ (s : LinearI) (p : List ℚ), (s.addOp p).1 ≠ none → (s.addOp p).2 = s) ∧
    (∀ (s : LinearI) (x : ℚ), (s.discardOp x).1 ≠ none → (s.discardOp x).2 = s) ∧
    (∀ (s : Hermite) (p : List ℚ), (s.addOp p).1 ≠ none → (s.addOp p).2 = s) ∧
    (∀ (s : Hermite) (x : ℚ), (s.discardOp x).1 ≠ none → (s.discardOp x).2 = s) := by
  refine ⟨?_, ?_, ?_, ?_, ?_, ?_⟩
  · intro L op
    cases op with
    | append p =>
      show (L.appendOp p).1 ≠ none → (L.appendOp p).2 = L
      simp only [Lagrange.appendOp]
      split
      · intro _; rfl
      · split
        · intro _; rfl
        · intro h; exact absurd rfl h
    | insert i p =>
      show (L.insertOp i p).1 ≠ none → (L.insertOp i p).2 = L
      simp only [Lagrange.insertOp]
      split
      · intro _; rfl
      · split
        · intro _; rfl
        · split
          · intro _; rfl
          · intro h; exact absurd rfl h
    | delete i =>
      show (L.delOp i).1 ≠ none → (L.delOp i).2 = L
      simp only [Lagrange.delOp]
      split
      · intro _; rfl
      · split
        · intro _; rfl
        · intro h; exact absurd rfl h
    | replace i p =>
      show (L.setOp i p).1 ≠ none → (L.setOp i p).2 = L
      simp only [Lagrange.setOp]
      split
      · intro _; rfl
      · split
        · intro _; rfl
        · split
          · intro _; rfl
          · intro h; exact absurd rfl h
  · intro st p
    simp only [Newton.appendOp]
    split
    · intro _; rfl
    · split
      · intro _; rfl
      · intro h; exact absurd rfl h
  · intro s p
    simp only [LinearI.addOp]
    split
    · intro _; rfl
    · split
      · intro _; rfl
      · intro h; exact absurd rfl h
  · intro s x
    simp only [LinearI.discardOp]
    split
    · split
      · intro _; rfl
      · intro h; exact absurd rfl h
    · intro h; exact absurd rfl h
  · intro s p
    simp only [Hermite.addOp]
    split
    · intro _; rfl
    · split
      · intro _; rfl
      · intro h; exact absurd rfl h
  · intro s x
    simp only [Hermite.discardOp]
    split
    · split
      · intro _; rfl
      · intro h; exact absurd rfl h
    · intro h; exact absurd rfl h

-- Witness for C7: deleting from a two-point Lagrange engine raises and
-- leaves the state unchanged (Scenario F of the spec).
theorem mutators_atomic_witness :
    (lagStep ⟨[0, 1], [1, 3], [-1, 1]⟩ (.delete 0)).1 ≠ none ∧
      (lagStep ⟨[0, 1], [1, 3], [-1, 1]⟩ (.delete 0)).2 = ⟨[0, 1], [1, 3], [-1, 1]⟩ :=
  ⟨by decide, mutators_atomic.1 ⟨[0, 1], [1, 3], [-1, 1]⟩ (.delete 0) (by decide)⟩

/-- Claim C9, counterexample: the claim says every positional operation,
including delete, raises on every negative index with no change; but
`__delitem__` has no bounds check, so deleting at index `-1` from a
three-point engine succeeds and removes the last point (Python semantics). -/
theorem lagrange_delete_negative_index_accepted :
    (⟨[0, 1, 2], [1, 3, 2], [1/2, -1, 1/2]⟩ : Lagrange).delOp (-1) =
      (none, ⟨[0, 1], [1, 3], [-1, 1]⟩) := by decide

/-- Claim C9 (amended): `get`, `insert` and `replace` reject every index
outside `[0, N)` (negative indices included) without change; `delete` first
requires `N ≥ 3`, then resolves the index with Python list semantics, so it
accepts indices in `[-N, N)` and raises (without change) only outside. -/
theorem lagrange_positional_index_errors :
    (∀ (L : Lagrange) (i : ℤ), (i < 0 ∨ (L.xs.length : ℤ) ≤ i) →
      L.getOp i = .error .indexOutOfRange) ∧
    (∀ (L : Lagrange) (i : ℤ) (p : List ℚ), (i < 0 ∨ (L.xs.length : ℤ) ≤ i) →
      L.insertOp i p = (some .indexOutOfRange, L)) ∧
    (∀ (L : Lagrange) (i : ℤ) (p : List ℚ), (i < 0 ∨ (L.xs.length : ℤ) ≤ i) →
      L.setOp i p = (some .indexOutOfRange, L)) ∧
    (∀ (L : Lagrange) (i : ℤ), 3 ≤ L.xs.length →
      (i < -(L.xs.length : ℤ) ∨ (L.xs.length : ℤ) ≤ i) →
      L.delOp i = (some .indexOutOfRange, L)) ∧
    (∀ (L : Lagrange) (i : ℤ), 3 ≤ L.xs.length →
      -(L.xs.length : ℤ) ≤ i → i < (L.xs.length : ℤ) → (L.delOp i).1 = none) := by
  refine ⟨?_, ?_, ?_, ?_, ?_⟩
  · intro L i h
    rw [Lagrange.getOp, if_pos h]
  · intro L i p h
    rw [Lagrange.insertOp, if_pos h]
  · intro L i p h
    rw [Lagrange.setOp, if_pos h]
  · intro L i hN h
    rw [Lagrange.delOp, if_neg (by omega)]
    rw [pyIdx_none_iff.2 h]
  · intro L i hN h1 h2
    simp only [Lagrange.delOp]
    rw [if_neg (by omega)]
    rcases ho : pyIdx L.xs.length i with - | j
    · rw [pyIdx_none_iff] at ho
      omega
    · simp

-- Witness for C9 (amended), at concrete indices on a three-point engine.
theorem lagrange_positional_index_errors_witness :
    (((-1 : ℤ) < 0 ∨ ((⟨[0, 1, 2], [1, 3, 2], [1/2, -1, 1/2]⟩ : Lagrange).xs.length : ℤ) ≤ -1) ∧
      (⟨[0, 1, 2], [1, 3, 2], [1/2, -1, 1/2]⟩ : Lagrange).getOp (-1) =
        .error .indexOutOfRange) ∧
      (3 ≤ (⟨[0, 1, 2], [1, 3, 2], [1/2, -1, 1/2]⟩ : Lagrange).xs.length ∧
        (⟨[0, 1, 2], [1, 3, 2], [1/2, -1, 1/2]⟩ : Lagrange).delOp 5 =
          (some .indexOutOfRange, ⟨[0, 1, 2], [1, 3, 2], [1/2, -1, 1/2]⟩)) :=
  ⟨⟨Or.inl (by decide),
      lagrange_positional_index_errors.1 ⟨[0, 1, 2], [1, 3, 2], [1/2, -1, 1/2]⟩ (-1)
        (Or.inl (by decide))⟩,
    ⟨by decide,
      lagrange_positional_index_errors.2.2.2.1 ⟨[0, 1, 2], [1, 3, 2], [1/2, -1, 1/2]⟩ 5
        (by decide) (Or.inr (by decide))⟩⟩

/-- Claim C6: the Linear and Hermite constructors do not reject duplicate
`x`-values (contradicting their docstrings and the claim): constructing the
Linear engine from `[(1,2),(1,3)]` and the Hermite engine from
`xs=[1,1], f=[2,3], fprime=[4,5]` succeeds and stores the duplicate nodes.
The polynomial engines and all mutators do reject duplicates. -/
theorem piecewise_init_accepts_duplicate_x :
    linearInit [((1 : ℚ), 2), (1, 3)] = .ok ⟨[1, 1], [2, 3]⟩ ∧
      hermiteInit [1, 1] [2, 3] [4, 5] = .ok ⟨[1, 1], [2, 3], [4, 5]⟩ ∧
      lagInit [((1 : ℚ), 2), (1, 3)] = .error .duplicateKey ∧
      newtonInit [((1 : ℚ), 2), (1, 3)] = .error .duplicateKey := by
  refine ⟨by decide, by decide, ?_, ?_⟩ <;> decide

/-! ## Newton: incremental construction equals fresh construction -/

theorem newtonRow_append_irrel (xs : List ℚ) (x : ℚ) {i : ℕ} (hi : i < xs.length)
    (yi : ℚ) (prevRow : List ℚ) :
    newtonRow (xs ++ [x]) i yi prevRow = newtonRow xs i yi prevRow := by
  unfold newtonRow
  congr 1
  funext row q
  rw [List.getD_append _ _ _ _ (by omega), List.getD_append _ _ _ _ hi]

theorem newtonTable_succ (xs ys : List ℚ) (n : ℕ) :
    newtonTable xs ys (n + 1) =
      ((newtonTable xs ys n).1 ++
          [(newtonRow xs n (ys.getD n 0) (newtonTable xs ys n).2).getLastD 0],
        newtonRow xs n (ys.getD n 0) (newtonTable xs ys n).2) := by
  unfold newtonTable
  rw [List.range_succ, List.foldl_append]
  rfl

theorem newtonTable_append_irrel (xs ys : List ℚ) (x y : ℚ) {n : ℕ}
    (hx : n ≤ xs.length) (hy : n ≤ ys.length) :
    newtonTable (xs ++ [x]) (ys ++ [y]) n = newtonTable xs ys n := by
  induction n with
  | zero => rfl
  | succ m ih =>
    rw [newtonTable_succ, newtonTable_succ, ih (by omega) (by omega),
      newtonRow_append_irrel xs x (by omega), List.getD_append _ _ _ _ (by omega)]

theorem newtonInit_ok_iff {pts : List (ℚ × ℚ)} {st : Newton} :
    newtonInit pts = .ok st ↔
      2 ≤ pts.length ∧ (pts.map Prod.fst).Nodup ∧
        st = ⟨pts.map Prod.fst, pts.map Prod.snd,
          (newtonTable (pts.map Prod.fst) (pts.map Prod.snd) pts.length).1,
          (newtonTable (pts.map Prod.fst) (pts.map Prod.snd) pts.length).2⟩ := by
  simp only [newtonInit]
  split
  · next h => simp only [false_iff, reduceCtorEq, false_and]; omega
  · next h =>
    split
    · next hnd =>
      constructor
      · intro he
        injection he with he
        exact ⟨by omega, hnd, he.symm⟩
      · rintro ⟨-, -, rfl⟩
        rfl
    · next hnd => simp only [reduceCtorEq, false_iff]; tauto

theorem newtonInit_concat {pts : List (ℚ × ℚ)} {st : Newton} {x y : ℚ}
    (h : newtonInit pts = .ok st) (hx : x ∉ st.xs) :
    newtonInit (pts ++ [(x, y)]) = .ok (st.appendP x y) := by
  obtain ⟨hlen, hnd, rfl⟩ := newtonInit_ok_iff.1 h
  have hxs : ((pts ++ [(x, y)]).map Prod.fst) = pts.map Prod.fst ++ [x] := by
    rw [List.map_append]; rfl
  have hys : ((pts ++ [(x, y)]).map Prod.snd) = pts.map Prod.snd ++ [y] := by
    rw [List.map_append]; rfl
  rw [newtonInit_ok_iff]
  refine ⟨by rw [List.length_append]; omega, ?_, ?_⟩
  · rw [hxs, List.nodup_append]
    refine ⟨hnd, List.nodup_singleton x, ?_⟩
    simpa [List.disjoint_singleton] using hx
  · simp only [Newton.appendP, Newton.mk.injEq, hxs, hys, List.length_append,
      List.length_map, List.length_singleton]
    rw [newtonTable_succ,
      newtonTable_append_irrel _ _ _ _ (by simp) (by simp)]
    simp

theorem newtonRun_init {qs : List (ℚ × ℚ)} {pts : List (ℚ × ℚ)} {st st' : Newton}
    (h : newtonInit pts = .ok st) (hr : newtonRun st qs = some st') :
    newtonInit (pts ++ qs) = .ok st' := by
  induction qs generalizing pts st with
  | nil =>
    simp only [newtonRun, Option.some.injEq] at hr
    rw [List.append_nil]
    exact hr ▸ h
  | cons q qs ih =>
    unfold newtonRun at hr
    split at hr
    · next st₁ heq =>
      simp only [Newton.tryAppend] at heq
      split at heq
      · exact absurd heq (by simp)
      · next hmem =>
        injection heq with heq
        have h2 : newtonInit (pts ++ [(q.1, q.2)]) = .ok (st.appendP q.1 q.2) :=
          newtonInit_concat h hmem
        have h3 := ih h2 (heq ▸ hr)
        rwa [List.append_assoc, List.singleton_append] at h3
    · exact absurd hr (by simp)

/-- Claim C2: for the Newton engine, after any finite sequence of valid
appends starting from a valid construction, the whole state — `xs`, `ys`,
the coefficients array, and the retained last divided-difference row —
equals the state a fresh construction from the extended point list (in the
same order) would compute. -/
theorem newton_incremental_eq_fresh {pts qs : List (ℚ × ℚ)} {st₀ st : Newton}
    (h0 : newtonInit pts = .ok st₀) (hr : newtonRun st₀ qs = some st) :
    newtonInit (pts ++ qs) = .ok st :=
  newtonRun_init h0 hr

-- Witness for C2: three construction points and one append.
theorem newton_incremental_eq_fresh_witness :
    newtonInit [((0 : ℚ), 1), (1, 3), (2, 2)] =
        .ok ⟨[0, 1, 2], [1, 3, 2], [1, 2, -(3/2)], [2, -1, -(3/2)]⟩ ∧
      newtonRun ⟨[0, 1, 2], [1, 3, 2], [1, 2, -(3/2)], [2, -1, -(3/2)]⟩ [(3, 5)] =
        some ⟨[0, 1, 2, 3], [1, 3, 2, 5], [1, 2, -(3/2), 7/6], [5, 3, 2, 7/6]⟩ ∧
      newtonInit ([((0 : ℚ), 1), (1, 3), (2, 2)] ++ [(3, 5)]) =
        .ok ⟨[0, 1, 2, 3], [1, 3, 2, 5], [1, 2, -(3/2), 7/6], [5, 3, 2, 7/6]⟩ :=
  ⟨by decide, by decide,
    @newton_incremental_eq_fresh [((0 : ℚ), 1), (1, 3), (2, 2)] [(3, 5)]
      ⟨[0, 1, 2], [1, 3, 2], [1, 2, -(3/2)], [2, -1, -(3/2)]⟩
      ⟨[0, 1, 2, 3], [1, 3, 2, 5], [1, 2, -(3/2), 7/6], [5, 3, 2, 7/6]⟩
      (by decide) (by decide)⟩

/-! ## Correctness of the bisection search -/

theorem getLastD_eq_getElem (l : List ℚ) (h0 : 0 < l.length) (d : ℚ) :
    l.getLastD d = l[l.length - 1] := by
  have hne : l ≠ [] := by
    intro h
    rw [h] at h0
    simp at h0
  rw [List.getLastD_eq_getLast?, List.getLast?_eq_getLast l hne,
    Option.getD_some, List.getLast_eq_getElem]

theorem countP_eq_of_cut (p : ℚ → Bool) (a : List ℚ) (lo : ℕ) (hloa : lo ≤ a.length)
    (hlo : ∀ i, ∀ h : i < a.length, i < lo → p a[i] = true)
    (hhigh : ∀ i, ∀ h : i < a.length, lo ≤ i → p a[i] = false) :
    lo = a.countP p := by
  have hsplit : a = a.take lo ++ a.drop lo := (List.take_append_drop lo a).symm
  conv_rhs => rw [hsplit]
  rw [List.countP_append]
  have h1 : (a.take lo).countP p = (a.take lo).length := by
    rw [List.countP_eq_length]
    intro y hy
    rcases List.mem_iff_getElem.1 hy with ⟨i, hit, hiy⟩
    have hitake : i < lo := by
      have := hit
      rw [List.length_take] at this
      omega
    rw [← hiy, List.getElem_take]
    exact hlo i (by omega) hitake
  have h2 : (a.drop lo).countP p = 0 := by
    rw [List.countP_eq_zero]
    intro y hy hpy
    rcases List.mem_iff_getElem.1 hy with ⟨i, hit, hiy⟩
    have hlen : lo + i < a.length := by
      have := hit
      rw [List.length_drop] at this
      omega
    rw [← hiy, List.getElem_drop] at hpy
    rw [hhigh (lo + i) hlen (by omega)] at hpy
    exact Bool.false_ne_true hpy
  rw [h1, h2, List.length_take]
  omega

theorem bisectGo_eq_countP (p : ℚ → Bool) (a : List ℚ)
    (hmono : ∀ i j, ∀ hi : i < a.length, ∀ hj : j < a.length,
      i ≤ j → p a[j] = true → p a[i] = true) :
    ∀ (fuel lo hi : ℕ), hi - lo ≤ fuel → lo ≤ hi → hi ≤ a.length →
      (∀ i, ∀ h : i < a.length, i < lo → p a[i] = true) →
      (∀ i, ∀ h : i < a.length, hi ≤ i → p a[i] = false) →
      bisectFuel p a fuel lo hi = a.countP p := by
  intro fuel
  induction fuel with
  | zero =>
    intro lo hi hfuel hlohi hhia hlo hhigh
    have hlohi2 : lo = hi := by omega
    subst hlohi2
    exact countP_eq_of_cut p a lo (by omega) hlo hhigh
  | succ f ih =>
    intro lo hi hfuel hlohi hhia hlo hhigh
    rw [bisectFuel]
    split
    · next hlt =>
      have hmidlo : lo ≤ (lo + hi) / 2 := by omega
      have hmidhi : (lo + hi) / 2 < hi := by omega
      have hmlen : (lo + hi) / 2 < a.length := by omega
      dsimp only
      rw [getD_eq_getElem a hmlen]
      split
      · next hp =>
        refine ih _ _ (by omega) (by omega) hhia ?_ hhigh
        intro i h hilt
        exact hmono i ((lo + hi) / 2) h hmlen (by omega) hp
      · next hp =>
        refine ih _ _ (by omega) (by omega) (by omega) hlo ?_
        intro i h hge
        cases hpi : p a[i] with
        | false => rfl
        | true => exact absurd (hmono ((lo + hi) / 2) i hmlen h hge hpi) (by simp [hp])
    · next hge =>
      have hlohi2 : lo = hi := by omega
      subst hlohi2
      exact countP_eq_of_cut p a lo (by omega) hlo hhigh

theorem bisect_eq_countP (p : ℚ → Bool) (a : List ℚ)
    (hmono : ∀ i j, ∀ hi : i < a.length, ∀ hj : j < a.length,
      i ≤ j → p a[j] = true → p a[i] = true) :
    bisectGo p a 0 a.length = a.countP p :=
  bisectGo_eq_countP p a hmono (a.length - 0) 0 a.length (by omega) (by omega) le_rfl
    (fun i _ h => absurd h (by omega)) (fun i h hge => absurd h (by omega))

theorem bisectLeft_eq_countP {a : List ℚ} (hs : a.Sorted (· ≤ ·)) (x : ℚ) :
    bisectLeft a x = a.countP (fun y => decide (y < x)) := by
  refine bisect_eq_countP _ a (fun i j hi hj hij hp => ?_)
  simp only [decide_eq_true_eq] at hp ⊢
  rcases Nat.eq_or_lt_of_le hij with rfl | hlt
  · exact hp
  · exact lt_of_le_of_lt (List.pairwise_iff_getElem.1 hs i j hi hj hlt) hp

theorem bisectRight_eq_countP {a : List ℚ} (hs : a.Sorted (· ≤ ·)) (x : ℚ) :
    bisectRight a x = a.countP (fun y => !decide (x < y)) := by
  refine bisect_eq_countP _ a (fun i j hi hj hij hp => ?_)
  simp only [Bool.not_eq_true', decide_eq_false_iff_not, not_lt] at hp ⊢
  rcases Nat.eq_or_lt_of_le hij with rfl | hlt
  · exact hp
  · exact le_trans (List.pairwise_iff_getElem.1 hs i j hi hj hlt) hp

theorem sorted_countP_getElem_iff {a : List ℚ} (hs : a.Sorted (· ≤ ·)) (p : ℚ → Bool)
    (hmono : ∀ u v : ℚ, u ≤ v → p v = true → p u = true) :
    ∀ i, ∀ h : i < a.length, (i < a.countP p ↔ p a[i] = true) := by
  induction a with
  | nil => intro i h; simp at h
  | cons b t iht =>
    have hrel := (List.sorted_cons.1 hs).1
    have hst := (List.sorted_cons.1 hs).2
    intro i h
    rw [List.countP_cons]
    cases hpb : p b with
    | true =>
      cases i with
      | zero => simpa using hpb
      | succ j =>
        have hj : j < t.length := by simpa using h
        simp only [hpb, if_true, List.getElem_cons_succ]
        constructor
        · intro hlt
          exact (iht hst j hj).1 (by omega)
        · intro hp
          have := (iht hst j hj).2 hp
          omega
    | false =>
      have ht0 : t.countP p = 0 := by
        rw [List.countP_eq_zero]
        intro y hy hpy
        rw [hmono b y (hrel y hy) hpy] at hpb
        exact absurd hpb (by simp)
      cases i with
      | zero =>
        simp [hpb, ht0]
      | succ j =>
        have hj : j < t.length := by simpa using h
        simp only [hpb, Bool.false_eq_true, if_false, ht0, List.getElem_cons_succ]
        constructor
        · omega
        · intro hp
          exact absurd hp (by
            have := List.countP_eq_zero.1 ht0 _ (List.getElem_mem hj)
            simp [this])

/-! ## Evaluation of the piecewise engines -/

theorem countP_lt_getElem_self {xs : List ℚ} (hs : xs.Sorted (· < ·)) {i : ℕ}
    (hi : i < xs.length) : xs.countP (fun y => decide (y < xs[i])) = i := by
  have hle : xs.Sorted (· ≤ ·) := hs.imp le_of_lt
  have hchar := sorted_countP_getElem_iff hle (fun y => decide (y < xs[i]))
    (fun u v huv hv => by
      simp only [decide_eq_true_eq] at hv ⊢
      exact lt_of_le_of_lt huv hv)
  by_contra hne
  rcases Nat.lt_or_ge (xs.countP (fun y => decide (y < xs[i]))) i with hlt | hge
  · have hclen : xs.countP (fun y => decide (y < xs[i])) < xs.length := by omega
    have := (hchar _ hclen).2 (by
      simp only [decide_eq_true_eq]
      exact List.pairwise_iff_getElem.1 hs _ i hclen hi hlt)
    omega
  · have hilt : i < xs.countP (fun y => decide (y < xs[i])) := by omega
    have := (hchar i hi).1 hilt
    simp at this

theorem countP_lt_eq_zero {xs : List ℚ} {x : ℚ} (h : ∀ y ∈ xs, ¬ y < x) :
    xs.countP (fun y => decide (y < x)) = 0 := by
  rw [List.countP_eq_zero]
  intro y hy
  simpa using h y hy

theorem countP_lt_eq_length {xs : List ℚ} {x : ℚ} (h : ∀ y ∈ xs, y < x) :
    xs.countP (fun y => decide (y < x)) = xs.length := by
  rw [List.countP_eq_length]
  intro y hy
  simpa using h y hy

theorem sorted_head_le {xs : List ℚ} (hs : xs.Sorted (· ≤ ·)) (h0 : 0 < xs.length)
    {y : ℚ} (hy : y ∈ xs) : xs[0] ≤ y := by
  rcases List.mem_iff_getElem.1 hy with ⟨i, hi, rfl⟩
  cases i with
  | zero => exact le_rfl
  | succ j => exact List.pairwise_iff_getElem.1 hs 0 (j + 1) h0 hi (by omega)

theorem sorted_le_last {xs : List ℚ} (hs : xs.Sorted (· ≤ ·)) (h0 : 0 < xs.length)
    {y : ℚ} (hy : y ∈ xs) : y ≤ xs[xs.length - 1] := by
  rcases List.mem_iff_getElem.1 hy with ⟨i, hi, rfl⟩
  rcases Nat.eq_or_lt_of_le (by omega : i ≤ xs.length - 1) with heq | hlt
  · subst heq
    exact le_rfl
  · exact List.pairwise_iff_getElem.1 hs i (xs.length - 1) hi (by omega) hlt

theorem line_eval_right {xL xR yL yR : ℚ} (h : xL ≠ xR) :
    (yL - yR) / (xL - xR) * xR + (yL - (yL - yR) / (xL - xR) * xL) = yR := by
  have h2 : xL - xR ≠ 0 := sub_ne_zero.2 h
  field_simp
  ring

theorem hermite_eval_right {xL xR fL fR fpL fpR : ℚ} (h : xL ≠ xR) :
    hermiteSegment xL xR fL fR fpL fpR xR = fR := by
  unfold hermiteSegment
  have h2 : xR - xL ≠ 0 := sub_ne_zero.2 (Ne.symm h)
  field_simp
  ring

theorem LinearI.call_below_min {s : LinearI} (hs : s.xs.Sorted (· < ·))
    (h1 : 1 ≤ s.xs.length) {x : ℚ} (hx : x < s.xs[0]) :
    s.call x = s.ys.getD 0 0 := by
  have hc : bisectLeft s.xs x = 0 := by
    rw [bisectLeft_eq_countP (hs.imp le_of_lt)]
    refine countP_lt_eq_zero (fun y hy hlt => ?_)
    have h0 := sorted_head_le (hs.imp le_of_lt) (by omega) hy
    linarith
  unfold LinearI.call
  dsimp only
  rw [hc]
  norm_num

theorem LinearI.call_above_max {s : LinearI} (hs : s.xs.Sorted (· < ·))
    (h1 : 1 ≤ s.xs.length) (hlen : s.ys.length = s.xs.length) {x : ℚ}
    (hx : s.xs[s.xs.length - 1] ≤ x) :
    s.call x = s.ys.getD (s.xs.length - 1) 0 := by
  have hyne : s.ys ≠ [] := by
    intro h
    rw [h] at hlen
    simp at hlen
    omega
  rcases eq_or_lt_of_le hx with heq | hlt
  · -- x is exactly the last node
    have hc : bisectLeft s.xs x = s.xs.length - 1 := by
      rw [bisectLeft_eq_countP (hs.imp le_of_lt), ← heq]
      exact countP_lt_getElem_self hs (by omega)
    unfold LinearI.call
    dsimp only
    rw [hc]
    rcases Nat.eq_or_lt_of_le h1 with h1eq | h2
    · -- single node
      rw [if_pos (by omega)]
      congr 1
      omega
    · -- at least two nodes: the bracketing segment ends at the last node
      rw [if_neg (by omega), if_neg (by omega)]
      have hidx : ((s.xs.length - 1 : ℕ) : ℤ) - 1 = ((s.xs.length - 2 : ℕ) : ℤ) := by
        omega
      rw [hidx, Int.toNat_ofNat]
      simp only [show s.xs.length - 2 + 1 = s.xs.length - 1 from by omega]
      rw [getD_eq_getElem s.xs (by omega : s.xs.length - 2 < s.xs.length),
        getD_eq_getElem s.xs (by omega : s.xs.length - 1 < s.xs.length),
        getD_eq_getElem s.ys (by omega : s.xs.length - 2 < s.ys.length),
        getD_eq_getElem s.ys (by omega : s.xs.length - 1 < s.ys.length)]
      rw [← heq]
      exact line_eval_right (ne_of_lt (List.pairwise_iff_getElem.1 hs _ _
        (by omega) (by omega) (by omega)))
  · -- x is strictly above the last node
    have hc : bisectLeft s.xs x = s.xs.length := by
      rw [bisectLeft_eq_countP (hs.imp le_of_lt)]
      refine countP_lt_eq_length (fun y hy => ?_)
      have h0 := sorted_le_last (hs.imp le_of_lt) (by omega) hy
      linarith
    unfold LinearI.call
    dsimp only
    rw [hc]
    rw [if_neg (by omega), if_pos (by omega)]
    rw [getLastD_eq_getElem s.ys (by omega), getD_eq_getElem s.ys (by omega)]
    congr 1
    omega

theorem LinearI.call_at_node {s : LinearI} (hs : s.xs.Sorted (· < ·))
    (hlen : s.ys.length = s.xs.length) {i : ℕ} (hi : i < s.xs.length) :
    s.call (s.xs[i]) = s.ys.getD i 0 := by
  have hc : bisectLeft s.xs (s.xs[i]) = i := by
    rw [bisectLeft_eq_countP (hs.imp le_of_lt)]
    exact countP_lt_getElem_self hs hi
  unfold LinearI.call
  dsimp only
  rw [hc]
  cases i with
  | zero => norm_num
  | succ j =>
    rw [if_neg (by omega), if_neg (by omega)]
    have hidx : ((j + 1 : ℕ) : ℤ) - 1 = ((j : ℕ) : ℤ) := by omega
    rw [hidx, Int.toNat_ofNat]
    rw [getD_eq_getElem s.xs (by omega : j < s.xs.length),
      getD_eq_getElem s.xs (by omega : j + 1 < s.xs.length),
      getD_eq_getElem s.ys (by omega : j < s.ys.length),
      getD_eq_getElem s.ys (by omega : j + 1 < s.ys.length)]
    exact line_eval_right (ne_of_lt (List.pairwise_iff_getElem.1 hs _ _
      (by omega) (by omega) (by omega)))

theorem Hermite.call_below_min_h {s : Hermite} (hs : s.xs.Sorted (· < ·))
    (h1 : 1 ≤ s.xs.length) {x : ℚ} (hx : x < s.xs[0]) :
    s.call x = s.ys.getD 0 0 := by
  have hc : bisectLeft s.xs x = 0 := by
    rw [bisectLeft_eq_countP (hs.imp le_of_lt)]
    refine countP_lt_eq_zero (fun y hy hlt => ?_)
    have h0 := sorted_head_le (hs.imp le_of_lt) (by omega) hy
    linarith
  unfold Hermite.call
  dsimp only
  rw [hc]
  norm_num

theorem Hermite.call_above_max_h {s : Hermite} (hs : s.xs.Sorted (· < ·))
    (h1 : 1 ≤ s.xs.length) (hlen : s.ys.length = s.xs.length) {x : ℚ}
    (hx : s.xs[s.xs.length - 1] ≤ x) :
    s.call x = s.ys.getD (s.xs.length - 1) 0 := by
  have hyne : s.ys ≠ [] := by
    intro h
    rw [h] at hlen
    simp at hlen
    omega
  rcases eq_or_lt_of_le hx with heq | hlt
  · have hc : bisectLeft s.xs x = s.xs.length - 1 := by
      rw [bisectLeft_eq_countP (hs.imp le_of_lt), ← heq]
      exact countP_lt_getElem_self hs (by omega)
    unfold Hermite.call
    dsimp only
    rw [hc]
    rcases Nat.eq_or_lt_of_le h1 with h1eq | h2
    · rw [if_pos (by omega)]
      congr 1
      omega
    · rw [if_neg (by omega), if_neg (by omega)]
      have hidx : ((s.xs.length - 1 : ℕ) : ℤ) - 1 = ((s.xs.length - 2 : ℕ) : ℤ) := by
        omega
      rw [hidx, Int.toNat_ofNat]
      simp only [show s.xs.length - 2 + 1 = s.xs.length - 1 from by omega]
      rw [getD_eq_getElem s.xs (by omega : s.xs.length - 2 < s.xs.length),
        getD_eq_getElem s.xs (by omega : s.xs.length - 1 < s.xs.length),
        getD_eq_getElem s.ys (by omega : s.xs.length - 2 < s.ys.length),
        getD_eq_getElem s.ys (by omega : s.xs.length - 1 < s.ys.length)]
      rw [← heq]
      exact hermite_eval_right (ne_of_lt (List.pairwise_iff_getElem.1 hs _ _
        (by omega) (by omega) (by omega)))
  · have hc : bisectLeft s.xs x = s.xs.length := by
      rw [bisectLeft_eq_countP (hs.imp le_of_lt)]
      refine countP_lt_eq_length (fun y hy => ?_)
      have h0 := sorted_le_last (hs.imp le_of_lt) (by omega) hy
      linarith
    unfold Hermite.call
    dsimp only
    rw [hc]
    rw [if_neg (by omega), if_pos (by omega)]
    rw [getLastD_eq_getElem s.ys (by omega), getD_eq_getElem s.ys (by omega)]
    congr 1
    omega

theorem Hermite.call_at_node_h {s : Hermite} (hs : s.xs.Sorted (· < ·))
    (hlen : s.ys.length = s.xs.length) {i : ℕ} (hi : i < s.xs.length) :
    s.call (s.xs[i]) = s.ys.getD i 0 := by
  have hc : bisectLeft s.xs (s.xs[i]) = i := by
    rw [bisectLeft_eq_countP (hs.imp le_of_lt)]
    exact countP_lt_getElem_self hs hi
  unfold Hermite.call
  dsimp only
  rw [hc]
  cases i with
  | zero => norm_num
  | succ j =>
    rw [if_neg (by omega), if_neg (by omega)]
    have hidx : ((j + 1 : ℕ) : ℤ) - 1 = ((j : ℕ) : ℤ) := by omega
    rw [hidx, Int.toNat_ofNat]
    rw [getD_eq_getElem s.xs (by omega : j < s.xs.length),
      getD_eq_getElem s.xs (by omega : j + 1 < s.xs.length),
      getD_eq_getElem s.ys (by omega : j < s.ys.length),
      getD_eq_getElem s.ys (by omega : j + 1 < s.ys.length)]
    exact hermite_eval_right (ne_of_lt (List.pairwise_iff_getElem.1 hs _ _
      (by omega) (by omega) (by omega)))

/-- Claim C5: for every Linear or Hermite evaluator with strictly ascending
nodes, evaluation returns the first node value for every query strictly
below the first node, the last node value for every query at or above the
last node, and, for a single-node engine, the stored value for every query. -/
theorem piecewise_flat_extrapolation :
    (∀ s : LinearI, s.xs.Sorted (· < ·) → s.ys.length = s.xs.length →
      ∀ h1 : 1 ≤ s.xs.length, ∀ x : ℚ,
        (x < s.xs[0] → s.call x = s.ys.getD 0 0) ∧
        (s.xs[s.xs.length - 1] ≤ x →
          s.call x = s.ys.getD (s.xs.length - 1) 0) ∧
        (s.xs.length = 1 → s.call x = s.ys.getD 0 0)) ∧
    (∀ s : Hermite, s.xs.Sorted (· < ·) → s.ys.length = s.xs.length →
      ∀ h1 : 1 ≤ s.xs.length, ∀ x : ℚ,
        (x < s.xs[0] → s.call x = s.ys.getD 0 0) ∧
        (s.xs[s.xs.length - 1] ≤ x →
          s.call x = s.ys.getD (s.xs.length - 1) 0) ∧
        (s.xs.length = 1 → s.call x = s.ys.getD 0 0)) := by
  constructor
  · intro s hs hlen h1 x
    refine ⟨fun hx => LinearI.call_below_min hs h1 hx,
      fun hx => LinearI.call_above_max hs h1 hlen hx, fun hN1 => ?_⟩
    rcases lt_or_ge x (s.xs[0]) with hlt | hge
    · exact LinearI.call_below_min hs h1 hlt
    · have h0 : s.xs.length - 1 = 0 := by omega
      have := LinearI.call_above_max hs h1 hlen (x := x) (by simpa [h0] using hge)
      rwa [h0] at this
  · intro s hs hlen h1 x
    refine ⟨fun hx => Hermite.call_below_min_h hs h1 hx,
      fun hx => Hermite.call_above_max_h hs h1 hlen hx, fun hN1 => ?_⟩
    rcases lt_or_ge x (s.xs[0]) with hlt | hge
    · exact Hermite.call_below_min_h hs h1 hlt
    · have h0 : s.xs.length - 1 = 0 := by omega
      have := Hermite.call_above_max_h hs h1 hlen (x := x) (by simpa [h0] using hge)
      rwa [h0] at this

-- Witness for C5: Scenario D (Linear from [(0,0),(10,10)]) below and above
-- the domain, and a one-node Hermite engine.
theorem piecewise_flat_extrapolation_witness :
    ((⟨[0, 10], [0, 10]⟩ : LinearI).call (-5) = ([0, 10] : List ℚ).getD 0 0 ∧
      (⟨[0, 10], [0, 10]⟩ : LinearI).call 15 = ([0, 10] : List ℚ).getD (2 - 1) 0) ∧
      (⟨[3], [7], [1]⟩ : Hermite).call 42 = ([7] : List ℚ).getD 0 0 :=
  ⟨⟨(piecewise_flat_extrapolation.1 ⟨[0, 10], [0, 10]⟩ (by decide) (by decide)
        (by decide) (-5)).1 (by decide),
      (piecewise_flat_extrapolation.1 ⟨[0, 10], [0, 10]⟩ (by decide) (by decide)
        (by decide) 15).2.1 (by decide)⟩,
    (piecewise_flat_extrapolation.2 ⟨[3], [7], [1]⟩ (by decide) (by decide)
      (by decide) 42).2.2 (by decide)⟩

/-! ## Sorted-order and alignment preservation for `add` / `discard` -/

theorem insertIdx_eq_take_cons_drop (l : List ℚ) {k : ℕ} (hk : k ≤ l.length) (x : ℚ) :
    l.insertIdx k x = l.take k ++ x :: l.drop k := by
  induction l generalizing k with
  | nil =>
    have hk0 : k = 0 := by simpa using hk
    subst hk0
    rfl
  | cons a t ih =>
    cases k with
    | zero => rfl
    | succ j =>
      simp only [List.insertIdx_succ_cons, List.take_succ_cons, List.drop_succ_cons,
        List.cons_append]
      rw [ih (by simpa using hk)]

theorem zip_insertIdx (xs ys : List ℚ) (k : ℕ) (x y : ℚ)
    (hlen : ys.length = xs.length) (hk : k ≤ xs.length) :
    (xs.insertIdx k x).zip (ys.insertIdx k y) = (xs.zip ys).insertIdx k (x, y) := by
  induction xs generalizing ys k with
  | nil =>
    have : ys = [] := List.eq_nil_of_length_eq_zero (by simpa using hlen)
    subst this
    cases k <;> rfl
  | cons a t ih =>
    cases ys with
    | nil => simp at hlen
    | cons b u =>
      cases k with
      | zero => rfl
      | succ j =>
        simp only [List.insertIdx_succ_cons, List.zip_cons_cons]
        rw [ih u j (by simpa using hlen) (by simpa using hk)]

theorem zip_eraseIdx (xs ys : List ℚ) (k : ℕ) (hlen : ys.length = xs.length) :
    (xs.eraseIdx k).zip (ys.eraseIdx k) = (xs.zip ys).eraseIdx k := by
  induction xs generalizing ys k with
  | nil =>
    have : ys = [] := List.eq_nil_of_length_eq_zero (by simpa using hlen)
    subst this
    rfl
  | cons a t ih =>
    cases ys with
    | nil => simp at hlen
    | cons b u =>
      cases k with
      | zero => rfl
      | succ j =>
        simp only [List.eraseIdx_cons_succ, List.zip_cons_cons]
        rw [ih u j (by simpa using hlen)]

theorem sorted_insertIdx_bisectRight {xs : List ℚ} (hs : xs.Sorted (· < ·)) {x : ℚ}
    (hx : x ∉ xs) : (xs.insertIdx (bisectRight xs x) x).Sorted (· < ·) := by
  have hle : xs.Sorted (· ≤ ·) := hs.imp le_of_lt
  have hcr : bisectRight xs x = xs.countP (fun y => !decide (x < y)) :=
    bisectRight_eq_countP hle x
  have hclen : xs.countP (fun y => !decide (x < y)) ≤ xs.length :=
    List.countP_le_length _
  have hchar := sorted_countP_getElem_iff hle (fun y => !decide (x < y))
    (fun u v huv hv => by
      simp only [Bool.not_eq_true', decide_eq_false_iff_not, not_lt] at hv ⊢
      exact le_trans huv hv)
  rw [hcr, insertIdx_eq_take_cons_drop xs hclen]
  have htake : ∀ u ∈ xs.take (xs.countP (fun y => !decide (x < y))), u < x := by
    intro u hu
    rcases List.mem_iff_getElem.1 hu with ⟨i, hit, hiu⟩
    have hilen : i < xs.length := by
      have := hit
      rw [List.length_take] at this
      omega
    have hic : i < xs.countP (fun y => !decide (x < y)) := by
      have := hit
      rw [List.length_take] at this
      omega
    have hp := (hchar i hilen).1 hic
    simp only [Bool.not_eq_true', decide_eq_false_iff_not, not_lt] at hp
    have hne : xs[i] ≠ x := fun hh => hx (hh ▸ List.getElem_mem hilen)
    rw [← hiu, List.getElem_take]
    exact lt_of_le_of_ne hp hne
  have hdrop : ∀ v ∈ xs.drop (xs.countP (fun y => !decide (x < y))), x < v := by
    intro v hv
    rcases List.mem_iff_getElem.1 hv with ⟨i, hit, hiv⟩
    have hilen : xs.countP (fun y => !decide (x < y)) + i < xs.length := by
      have := hit
      rw [List.length_drop] at this
      omega
    have hnp : ¬ (xs.countP (fun y => !decide (x < y)) + i <
        xs.countP (fun y => !decide (x < y))) := by omega
    have hp : (fun y => !decide (x < y)) (xs[xs.countP (fun y => !decide (x < y)) + i]) ≠ true :=
      fun hh => hnp ((hchar _ hilen).2 hh)
    simp only [Bool.not_eq_true', decide_eq_false_iff_not, not_not] at hp
    simpa [← hiv, List.getElem_drop] using hp
  rw [List.Sorted, List.pairwise_append]
  refine ⟨hs.sublist (List.take_sublist _ _), ?_, ?_⟩
  · rw [List.pairwise_cons]
    exact ⟨hdrop, hs.sublist (List.drop_sublist _ _)⟩
  · intro u hu v hv
    rcases List.mem_cons.1 hv with rfl | hv2
    · exact htake u hu
    · exact lt_trans (htake u hu) (hdrop v hv2)

/-- Claim C8: after every successful `add` or `discard` on a Linear or
Hermite engine with strictly ascending nodes, the `x` array is still
strictly ascending and the `y` (and, for Hermite, derivative) arrays stay
aligned index-for-index: the pairing of retained samples is preserved, and
the new sample is inserted at the same position in every array. -/
theorem piecewise_add_discard_preserve_order :
    (∀ (s : LinearI) (p : List ℚ) (t : LinearI),
      s.xs.Sorted (· < ·) → s.ys.length = s.xs.length → s.addOp p = (none, t) →
      t.xs.Sorted (· < ·) ∧
        t.xs.zip t.ys =
          (s.xs.zip s.ys).insertIdx (bisectRight s.xs (p.getD 0 0))
            (p.getD 0 0, p.getD 1 0)) ∧
    (∀ (s : LinearI) (x : ℚ) (t : LinearI),
      s.xs.Sorted (· < ·) → s.ys.length = s.xs.length → s.discardOp x = (none, t) →
      t.xs.Sorted (· < ·) ∧
        t.xs.zip t.ys = (s.xs.zip s.ys).eraseIdx (listIndexOf s.xs x)) ∧
    (∀ (s : Hermite) (p : List ℚ) (t : Hermite),
      s.xs.Sorted (· < ·) → s.ys.length = s.xs.length → s.fp.length = s.xs.length →
      s.addOp p = (none, t) →
      t.xs.Sorted (· < ·) ∧
        t.xs.zip t.ys =
          (s.xs.zip s.ys).insertIdx (bisectRight s.xs (p.getD 0 0))
            (p.getD 0 0, p.getD 1 0) ∧
        t.xs.zip t.fp =
          (s.xs.zip s.fp).insertIdx (bisectRight s.xs (p.getD 0 0))
            (p.getD 0 0, p.getD 2 0)) ∧
    (∀ (s : Hermite) (x : ℚ) (t : Hermite),
      s.xs.Sorted (· < ·) → s.ys.length = s.xs.length → s.fp.length = s.xs.length →
      s.discardOp x = (none, t) →
      t.xs.Sorted (· < ·) ∧
        t.xs.zip t.ys = (s.xs.zip s.ys).eraseIdx (listIndexOf s.xs x) ∧
        t.xs.zip t.fp = (s.xs.zip s.fp).eraseIdx (listIndexOf s.xs x)) := by
  have hbr : ∀ (xs : List ℚ), xs.Sorted (· < ·) → ∀ x : ℚ,
      bisectRight xs x ≤ xs.length := by
    intro xs hs x
    rw [bisectRight_eq_countP (hs.imp le_of_lt)]
    exact List.countP_le_length _
  refine ⟨?_, ?_, ?_, ?_⟩
  · intro s p t hs hlen ht
    simp only [LinearI.addOp] at ht
    split at ht
    · simp at ht
    · split at ht
      · simp at ht
      · next hx =>
        injection ht with h1 h2
        subst h2
        exact ⟨sorted_insertIdx_bisectRight hs hx,
          zip_insertIdx _ _ _ _ _ hlen (hbr s.xs hs _)⟩
  · intro s x t hs hlen ht
    simp only [LinearI.discardOp] at ht
    split at ht
    · next hx =>
      split at ht
      · simp at ht
      · injection ht with h1 h2
        subst h2
        exact ⟨hs.sublist (List.eraseIdx_sublist _ _),
          zip_eraseIdx _ _ _ hlen⟩
    · next hx =>
      injection ht with h1 h2
      subst h2
      refine ⟨hs, ?_⟩
      rw [List.eraseIdx_of_length_le]
      rw [List.length_zip, listIndexOf, List.indexOf_eq_length.2 hx]
      omega
  · intro s p t hs hlen hflen ht
    simp only [Hermite.addOp] at ht
    split at ht
    · simp at ht
    · split at ht
      · simp at ht
      · next hx =>
        injection ht with h1 h2
        subst h2
        exact ⟨sorted_insertIdx_bisectRight hs hx,
          zip_insertIdx _ _ _ _ _ hlen (hbr s.xs hs _),
          zip_insertIdx _ _ _ _ _ hflen (hbr s.xs hs _)⟩
  · intro s x t hs hlen hflen ht
    simp only [Hermite.discardOp] at ht
    split at ht
    · next hx =>
      split at ht
      · simp at ht
      · injection ht with h1 h2
        subst h2
        exact ⟨hs.sublist (List.eraseIdx_sublist _ _),
          zip_eraseIdx _ _ _ hlen, zip_eraseIdx _ _ _ hflen⟩
    · next hx =>
      injection ht with h1 h2
      subst h2
      refine ⟨hs, ?_, ?_⟩ <;>
        · rw [List.eraseIdx_of_length_le]
          rw [List.length_zip, listIndexOf, List.indexOf_eq_length.2 hx]
          omega

-- Witness for C8: adding (5,7) to the Scenario D engine and discarding a
-- node from a Hermite engine.
theorem piecewise_add_discard_preserve_order_witness :
    (⟨[0, 10], [0, 10]⟩ : LinearI).addOp [5, 7] = (none, ⟨[0, 5, 10], [0, 7, 10]⟩) ∧
      (([0, 5, 10] : List ℚ).Sorted (· < ·) ∧
        ([0, 5, 10] : List ℚ).zip ([0, 7, 10] : List ℚ) =
          (([0, 10] : List ℚ).zip ([0, 10] : List ℚ)).insertIdx
            (bisectRight [0, 10] (([5, 7] : List ℚ).getD 0 0))
            (([5, 7] : List ℚ).getD 0 0, ([5, 7] : List ℚ).getD 1 0)) ∧
      (([0, 2] : List ℚ).Sorted (· < ·) ∧
        ([0, 2] : List ℚ).zip ([5, 6] : List ℚ) =
          (([0, 1, 2] : List ℚ).zip ([5, 9, 6] : List ℚ)).eraseIdx
            (listIndexOf [0, 1, 2] 1) ∧
        ([0, 2] : List ℚ).zip ([7, 8] : List ℚ) =
          (([0, 1, 2] : List ℚ).zip ([7, 4, 8] : List ℚ)).eraseIdx
            (listIndexOf [0, 1, 2] 1)) :=
by
  refine ⟨by decide, ?_, ?_⟩
  · have h := piecewise_add_discard_preserve_order.1 ⟨[0, 10], [0, 10]⟩ [5, 7]
      ⟨[0, 5, 10], [0, 7, 10]⟩ (by decide) (by decide) (by decide)
    simpa using h
  · have h := piecewise_add_discard_preserve_order.2.2.2 ⟨[0, 1, 2], [5, 9, 6], [7, 4, 8]⟩ 1
      ⟨[0, 2], [5, 6], [7, 8]⟩ (by decide) (by decide) (by decide) (by decide)
    simpa using h

/-! ## Divided differences: semantic layer -/

/-- The divided difference of a point list, in symmetric form: the sum of
`y * w` over the points, with `w` the barycentric weight of the node. -/
def ddSym (ps : List (ℚ × ℚ)) : ℚ :=
  (ps.map (fun q => q.2 * invW (ps.map Prod.fst) q.1)).sum

/-- Semantic contents of the retained divided-difference row after the
points `ps` have been processed: entry `j` is the divided difference of the
last `j + 1` points. -/
def ddRowSem (ps : List (ℚ × ℚ)) : List ℚ :=
  (List.range ps.length).map (fun j => ddSym (ps.drop (ps.length - 1 - j)))

/-- Semantic contents of the Newton coefficient array: coefficient `i` is
the divided difference of the first `i + 1` points. -/
def coefSem (ps : List (ℚ × ℚ)) : List ℚ :=
  (List.range ps.length).map (fun i => ddSym (ps.take (i + 1)))

/-- Evaluation of the interpolating polynomial of `ps` in Lagrange basis
form: `Σ yᵢ · wᵢ · Π_{j≠i} (t - xⱼ)`. -/
def lpEval (ps : List (ℚ × ℚ)) (t : ℚ) : ℚ :=
  (ps.map (fun q => q.2 * invW (ps.map Prod.fst) q.1 *
    phi t ((ps.map Prod.fst).erase q.1))).sum

/-- Evaluation of the Newton form with coefficient list `coef` over nodes
`xs`: `Σ coefᵢ · Π_{j<i} (t - xⱼ)`. -/
def npSum (xs coef : List ℚ) (t : ℚ) : ℚ :=
  (coef.enum.map (fun q => q.2 * phi t (xs.take q.1))).sum

theorem sum_map_addQ {α : Type} (l : List α) (f g : α → ℚ) :
    (l.map (fun p => f p + g p)).sum = (l.map f).sum + (l.map g).sum := by
  induction l with
  | nil => simp
  | cons a t ih =>
    simp only [List.map_cons, List.sum_cons, ih]
    ring

theorem sum_map_subQ {α : Type} (l : List α) (f g : α → ℚ) :
    (l.map (fun p => f p - g p)).sum = (l.map f).sum - (l.map g).sum := by
  induction l with
  | nil => simp
  | cons a t ih =>
    simp only [List.map_cons, List.sum_cons, ih]
    ring

theorem sum_eq_zeroQ {α : Type} (l : List α) (f : α → ℚ)
    (h : ∀ p ∈ l, f p = 0) : (l.map f).sum = 0 := by
  induction l with
  | nil => rfl
  | cons a t ih =>
    simp only [List.map_cons, List.sum_cons, h a (List.mem_cons_self a t),
      ih (fun p hp => h p (List.mem_cons_of_mem a hp)), add_zero]

theorem ddSym_singleton (q : ℚ × ℚ) : ddSym [q] = q.2 := by
  simp [ddSym, invW, phi, prod]

theorem ddSym_rec (a b : ℚ × ℚ) (mid : List (ℚ × ℚ))
    (hnd : ((a :: (mid ++ [b])).map Prod.fst).Nodup) :
    ddSym (a :: (mid ++ [b])) =
      (ddSym (a :: mid) - ddSym (mid ++ [b])) / (a.1 - b.1) := by
  have hxs : (a :: (mid ++ [b])).map Prod.fst =
      a.1 :: (mid.map Prod.fst ++ [b.1]) := by simp
  rw [hxs] at hnd
  have hanin : a.1 ∉ mid.map Prod.fst ++ [b.1] := (List.nodup_cons.1 hnd).1
  have hanm : a.1 ∉ mid.map Prod.fst := fun h => hanin (List.mem_append_left _ h)
  have hab : a.1 ≠ b.1 := fun h => hanin (List.mem_append_right _ (h ▸ List.mem_singleton_self _))
  have hrest : (mid.map Prod.fst ++ [b.1]).Nodup := (List.nodup_cons.1 hnd).2
  have hbnm : b.1 ∉ mid.map Prod.fst := by
    rcases List.nodup_append.1 hrest with ⟨-, -, hdisj⟩
    exact fun h => hdisj h (List.mem_singleton_self _)
  have hndm : (mid.map Prod.fst).Nodup := (List.nodup_append.1 hrest).1
  have hc : a.1 - b.1 ≠ 0 := sub_ne_zero.2 hab
  -- expand the three sums
  have e1 : ddSym (a :: (mid ++ [b])) =
      (fun q : ℚ × ℚ => q.2 * invW (a.1 :: (mid.map Prod.fst ++ [b.1])) q.1) a +
        ((mid.map (fun q : ℚ × ℚ =>
          q.2 * invW (a.1 :: (mid.map Prod.fst ++ [b.1])) q.1)).sum +
          (fun q : ℚ × ℚ => q.2 * invW (a.1 :: (mid.map Prod.fst ++ [b.1])) q.1) b) := by
    rw [ddSym, hxs]
    simp
  have e2 : ddSym (a :: mid) =
      (fun q : ℚ × ℚ => q.2 * invW (a.1 :: mid.map Prod.fst) q.1) a +
        (mid.map (fun q : ℚ × ℚ => q.2 * invW (a.1 :: mid.map Prod.fst) q.1)).sum := by
    rw [ddSym]
    simp
  have e3 : ddSym (mid ++ [b]) =
      (mid.map (fun q : ℚ × ℚ => q.2 * invW (mid.map Prod.fst ++ [b.1]) q.1)).sum +
        (fun q : ℚ × ℚ => q.2 * invW (mid.map Prod.fst ++ [b.1]) q.1) b := by
    rw [ddSym]
    simp
  rw [e1, e2, e3]
  -- head term
  have ha : a.2 * invW (a.1 :: (mid.map Prod.fst ++ [b.1])) a.1 =
      a.2 * invW (a.1 :: mid.map Prod.fst) a.1 * (a.1 - b.1)⁻¹ := by
    rw [invW, invW, List.erase_cons_head, List.erase_cons_head, phi_concat, mul_inv]
    ring
  -- last term
  have hb : b.2 * invW (a.1 :: (mid.map Prod.fst ++ [b.1])) b.1 =
      -(b.2 * invW (mid.map Prod.fst ++ [b.1]) b.1) * (a.1 - b.1)⁻¹ := by
    rw [invW, invW,
      List.erase_cons_tail (by simp only [beq_iff_eq]; exact hab),
      List.erase_append_right _ hbnm, List.erase_cons_head, List.append_nil,
      phi_cons]
    rw [mul_inv, show b.1 - a.1 = -(a.1 - b.1) by ring]
    rw [inv_neg]
    ring
  -- middle terms
  have hm : ∀ p ∈ mid,
      p.2 * invW (a.1 :: (mid.map Prod.fst ++ [b.1])) p.1 =
        (p.2 * invW (a.1 :: mid.map Prod.fst) p.1 -
          p.2 * invW (mid.map Prod.fst ++ [b.1]) p.1) * (a.1 - b.1)⁻¹ := by
    intro p hp
    have hv : p.1 ∈ mid.map Prod.fst := List.mem_map.2 ⟨p, hp, rfl⟩
    have hva : p.1 ≠ a.1 := fun h => hanm (h ▸ hv)
    have hvb : p.1 ≠ b.1 := fun h => hbnm (h ▸ hv)
    have hQ : phi p.1 ((mid.map Prod.fst).erase p.1) ≠ 0 :=
      phi_ne_zero _ (hndm.not_mem_erase)
    rw [invW, invW, invW,
      List.erase_cons_tail (by simp only [beq_iff_eq]; exact fun h => hva h.symm),
      List.erase_append_left _ hv,
      List.erase_cons_tail (by simp only [beq_iff_eq]; exact fun h => hva h.symm)]
    simp only [phi_cons, phi_concat]
    have hA : p.1 - a.1 ≠ 0 := sub_ne_zero.2 hva
    have hB : p.1 - b.1 ≠ 0 := sub_ne_zero.2 hvb
    field_simp
    ring
  rw [List.map_congr_left hm]
  simp only []
  rw [ha, hb]
  rw [show (fun p : ℚ × ℚ => (p.2 * invW (a.1 :: mid.map Prod.fst) p.1 -
      p.2 * invW (mid.map Prod.fst ++ [b.1]) p.1) * (a.1 - b.1)⁻¹) =
    (fun p : ℚ × ℚ => (fun r : ℚ × ℚ => r.2 * invW (a.1 :: mid.map Prod.fst) r.1 -
      r.2 * invW (mid.map Prod.fst ++ [b.1]) r.1) p * (a.1 - b.1)⁻¹) from rfl]
  rw [List.sum_map_mul_right, sum_map_subQ]
  rw [div_eq_mul_inv]
  ring

theorem sum_map_eq_of_single {α : Type} (F : α → ℚ) (ps : List α) (i : ℕ)
    (hi : i < ps.length) (hz : ∀ k, ∀ h : k < ps.length, k ≠ i → F ps[k] = 0) :
    (ps.map F).sum = F ps[i] := by
  have hdecomp : ps = ps.take i ++ ps[i] :: ps.drop (i + 1) := by
    rw [← List.drop_eq_getElem_cons hi, List.take_append_drop]
  conv_lhs => rw [hdecomp]
  rw [List.map_append, List.map_cons, List.sum_append, List.sum_cons]
  have h1 : (ps.take i).map F = (ps.take i).map (fun _ => (0 : ℚ)) := by
    apply List.map_congr_left
    intro y hy
    rcases List.mem_iff_getElem.1 hy with ⟨k, hk, rfl⟩
    have hklen : k < ps.length := by
      have := hk
      rw [List.length_take] at this
      omega
    rw [List.getElem_take]
    exact hz k hklen (by
      have := hk
      rw [List.length_take] at this
      omega)
  have h2 : (ps.drop (i + 1)).map F = (ps.drop (i + 1)).map (fun _ => (0 : ℚ)) := by
    apply List.map_congr_left
    intro y hy
    rcases List.mem_iff_getElem.1 hy with ⟨k, hk, rfl⟩
    have hklen : i + 1 + k < ps.length := by
      have := hk
      rw [List.length_drop] at this
      omega
    rw [List.getElem_drop]
    exact hz (i + 1 + k) hklen (by omega)
  rw [h1, h2]
  simp

theorem lpEval_node {ps : List (ℚ × ℚ)} (hnd : (ps.map Prod.fst).Nodup)
    {i : ℕ} (hi : i < ps.length) :
    lpEval ps (ps[i].1) = ps[i].2 := by
  have hmapi : ∀ k, ∀ h : k < ps.length, ∀ hm : k < (ps.map Prod.fst).length,
      (ps.map Prod.fst)[k] = ps[k].1 :=
    fun k h hm => List.getElem_map _
  have hvmem : ps[i].1 ∈ ps.map Prod.fst := List.mem_map.2 ⟨ps[i], List.getElem_mem hi, rfl⟩
  rw [lpEval]
  rw [sum_map_eq_of_single _ ps i hi ?_]
  · -- the diagonal term
    have hQne : phi (ps[i].1) ((ps.map Prod.fst).erase (ps[i].1)) ≠ 0 :=
      phi_ne_zero _ hnd.not_mem_erase
    rw [invW, mul_assoc, inv_mul_cancel₀ hQne, mul_one]
  · intro k hk hki
    have hne : ps[k].1 ≠ ps[i].1 := by
      intro heq
      apply hki
      have hk2 : k < (ps.map Prod.fst).length := by simpa using hk
      have hi2 : i < (ps.map Prod.fst).length := by simpa using hi
      have h1 : (ps.map Prod.fst)[k] = (ps.map Prod.fst)[i] := by
        rw [hmapi k hk hk2, hmapi i hi hi2]
        exact heq
      exact (List.Nodup.getElem_inj_iff hnd).1 h1
    have hvmem2 : ps[i].1 ∈ (ps.map Prod.fst).erase (ps[k].1) :=
      (List.mem_erase_of_ne (fun h => hne h.symm)).2 hvmem
    rw [phi_eq_zero _ hvmem2, mul_zero]

theorem lpEval_concat {ps : List (ℚ × ℚ)} {q : ℚ × ℚ}
    (hnd : ((ps ++ [q]).map Prod.fst).Nodup) (t : ℚ) :
    lpEval (ps ++ [q]) t = lpEval ps t + ddSym (ps ++ [q]) * phi t (ps.map Prod.fst) := by
  have hxs : (ps ++ [q]).map Prod.fst = ps.map Prod.fst ++ [q.1] := by simp
  rw [hxs] at hnd
  have hqn : q.1 ∉ ps.map Prod.fst := by
    rcases List.nodup_append.1 hnd with ⟨-, -, hdisj⟩
    exact fun h => hdisj h (List.mem_singleton_self _)
  have hndp : (ps.map Prod.fst).Nodup := (List.nodup_append.1 hnd).1
  rw [lpEval, lpEval, ddSym, hxs]
  rw [List.map_append, List.map_append, List.sum_append, List.sum_append]
  simp only [List.map_cons, List.map_nil, List.sum_cons, List.sum_nil, add_zero]
  -- the appended term of the left sum equals the appended ddSym term times phi
  have htail : q.2 * invW (ps.map Prod.fst ++ [q.1]) q.1 *
      phi t ((ps.map Prod.fst ++ [q.1]).erase q.1) =
      q.2 * invW (ps.map Prod.fst ++ [q.1]) q.1 * phi t (ps.map Prod.fst) := by
    rw [List.erase_append_right _ hqn, List.erase_cons_head, List.append_nil]
  rw [htail]
  -- pointwise identity on the old points
  have hmid : ∀ p ∈ ps,
      p.2 * invW (ps.map Prod.fst ++ [q.1]) p.1 *
        phi t ((ps.map Prod.fst ++ [q.1]).erase p.1) =
      p.2 * invW (ps.map Prod.fst) p.1 * phi t ((ps.map Prod.fst).erase p.1) +
        p.2 * invW (ps.map Prod.fst ++ [q.1]) p.1 * phi t (ps.map Prod.fst) := by
    intro p hp
    have hv : p.1 ∈ ps.map Prod.fst := List.mem_map.2 ⟨p, hp, rfl⟩
    have hvq : p.1 ≠ q.1 := fun h => hqn (h ▸ hv)
    have hphixs : phi t (ps.map Prod.fst) =
        (t - p.1) * phi t ((ps.map Prod.fst).erase p.1) :=
      (phi_perm t (List.perm_cons_erase hv)).trans (phi_cons _ _ _)
    rw [List.erase_append_left _ hv, phi_concat, invW_concat_mem hv, invW, hphixs]
    have hA : p.1 - q.1 ≠ 0 := sub_ne_zero.2 hvq
    have hP : phi p.1 ((ps.map Prod.fst).erase p.1) ≠ 0 :=
      phi_ne_zero _ hndp.not_mem_erase
    field_simp
    ring
  rw [List.map_congr_left hmid, sum_map_addQ]
  rw [show (fun p : ℚ × ℚ => p.2 * invW (ps.map Prod.fst ++ [q.1]) p.1 *
      phi t (ps.map Prod.fst)) =
    (fun p : ℚ × ℚ => (fun r : ℚ × ℚ => r.2 * invW (ps.map Prod.fst ++ [q.1]) r.1) p *
      phi t (ps.map Prod.fst)) from rfl]
  rw [List.sum_map_mul_right]
  ring

theorem coefSem_concat (ps : List (ℚ × ℚ)) (q : ℚ × ℚ) :
    coefSem (ps ++ [q]) = coefSem ps ++ [ddSym (ps ++ [q])] := by
  rw [coefSem, coefSem]
  rw [List.length_append, List.length_singleton, List.range_succ,
    List.map_append, List.map_singleton]
  congr 1
  · apply List.map_congr_left
    intro i hi
    have hle : i + 1 ≤ ps.length := by
      have := List.mem_range.1 hi
      omega
    rw [List.take_append_of_le_length hle]
  · rw [List.take_of_length_le (by simp)]

theorem npSum_concat (xs coef : List ℚ) (c t : ℚ) :
    npSum xs (coef ++ [c]) t = npSum xs coef t + c * phi t (xs.take coef.length) := by
  rw [npSum, npSum, List.enum_append, List.map_append, List.sum_append]
  simp [List.enumFrom]

theorem npSum_take_irrel (xs : List ℚ) (x : ℚ) (coef : List ℚ) (t : ℚ)
    (h : coef.length ≤ xs.length) :
    npSum (xs ++ [x]) coef t = npSum xs coef t := by
  rw [npSum, npSum]
  congr 1
  apply List.map_congr_left
  intro p hp
  have hp1 : p.1 < coef.length := by
    rw [List.enum] at hp
    have := List.mem_enumFrom hp
    omega
  rw [List.take_append_of_le_length (by omega)]

theorem npSum_coefSem {ps : List (ℚ × ℚ)} (hnd : (ps.map Prod.fst).Nodup) (t : ℚ) :
    npSum (ps.map Prod.fst) (coefSem ps) t = lpEval ps t := by
  induction ps using List.reverseRecOn with
  | nil => simp [npSum, coefSem, lpEval]
  | append_singleton ps q ih =>
    have hmap : (ps ++ [q]).map Prod.fst = ps.map Prod.fst ++ [q.1] := by simp
    have hndp : (ps.map Prod.fst).Nodup := by
      rw [hmap] at hnd
      exact (List.nodup_append.1 hnd).1
    rw [hmap, coefSem_concat, npSum_concat]
    have hlen : (coefSem ps).length = (ps.map Prod.fst).length := by
      simp [coefSem]
    rw [hlen, List.take_left]
    rw [npSum_take_irrel _ _ _ _ (by simp [coefSem])]
    rw [ih hndp, lpEval_concat hnd t]

theorem horner_range (xs coef : List ℚ) (x : ℚ) (n : ℕ)
    (hn : n ≤ coef.length) (hx : n ≤ xs.length) (b : ℚ) :
    (List.range n).foldr (fun i y => y * (x - xs.getD i 0) + coef.getD i 0) b =
      npSum xs (coef.take n) x + b * phi x (xs.take n) := by
  induction n generalizing b with
  | zero => simp [npSum, phi, prod]
  | succ n ih =>
    rw [List.range_succ, List.foldr_append]
    simp only [List.foldr_cons, List.foldr_nil]
    rw [ih (by omega) (by omega)]
    have hc : coef.take (n + 1) = coef.take n ++ [coef.getD n 0] := by
      rw [List.take_succ, getD_eq_getElem coef (by omega),
        List.getElem?_eq_getElem (show n < coef.length by omega)]
      rfl
    have hxs : xs.take (n + 1) = xs.take n ++ [xs.getD n 0] := by
      rw [List.take_succ, getD_eq_getElem xs (by omega),
        List.getElem?_eq_getElem (show n < xs.length by omega)]
      rfl
    rw [hc, npSum_concat, List.length_take, Nat.min_eq_left (by omega), hxs, phi_concat]
    ring

theorem call_eq_npSum (st : Newton) (x : ℚ)
    (hlen : st.coef.length = st.xs.length) (hN : 1 ≤ st.xs.length) :
    st.call x = npSum st.xs st.coef x := by
  rw [Newton.call, List.foldl_reverse]
  rw [horner_range st.xs st.coef x (st.xs.length - 1) (by omega) (by omega)]
  have hcne : st.coef ≠ [] := by
    intro h
    rw [h] at hlen
    simp at hlen
    omega
  have hlast : st.coef.getLastD 0 = st.coef.getD (st.xs.length - 1) 0 := by
    rw [getLastD_eq_getElem st.coef (by omega), getD_eq_getElem st.coef (by omega)]
    congr 1
    omega
  have hsplit : st.coef = st.coef.take (st.xs.length - 1) ++ [st.coef.getLastD 0] := by
    rw [hlast, getD_eq_getElem st.coef (by omega)]
    conv_lhs => rw [← List.take_append_drop (st.xs.length - 1) st.coef]
    congr 1
    rw [List.drop_eq_getElem_cons (by omega)]
    rw [List.drop_eq_nil_of_le (by omega)]
  conv_rhs => rw [hsplit]
  rw [npSum_concat, List.length_take, Nat.min_eq_left (by omega)]

theorem newtonRow_go (xs : List ℚ) (i : ℕ) (g : ℕ → ℚ) :
    ∀ (rest : List ℚ) (k : ℕ) (acc : List ℚ),
    acc.getLastD 0 = g k →
    (∀ j, ∀ hj : j < rest.length, g (k + j + 1) =
      (rest[j] - g (k + j)) / (xs.getD (i - 1 - (k + j)) 0 - xs.getD i 0)) →
    (rest.enumFrom k).foldl
      (fun row q => row ++ [(q.2 - row.getLastD 0) / (xs.getD (i - 1 - q.1) 0 - xs.getD i 0)])
      acc = acc ++ (List.range' (k + 1) rest.length).map g := by
  intro rest
  induction rest with
  | nil =>
    intro k acc hlast hrec
    simp
  | cons p rest ih =>
    intro k acc hlast hrec
    rw [List.enumFrom_cons, List.foldl_cons]
    have h0 : g (k + 1) = (p - g k) / (xs.getD (i - 1 - k) 0 - xs.getD i 0) := by
      have h := hrec 0 (by simp)
      simpa using h
    have hstep : ((k, p).2 - acc.getLastD 0) / (xs.getD (i - 1 - (k, p).1) 0 - xs.getD i 0)
        = g (k + 1) := by
      rw [hlast, h0]
    rw [hstep]
    rw [ih (k + 1) (acc ++ [g (k + 1)]) (List.getLastD_concat _ _ _) ?_]
    · rw [List.append_assoc, List.singleton_append, List.length_cons, List.range'_succ,
        List.map_cons]
    · intro j hj
      have h := hrec (j + 1) (by simpa using Nat.succ_lt_succ hj)
      rw [List.getElem_cons_succ] at h
      have e1 : k + (j + 1) = k + 1 + j := by omega
      rw [e1] at h
      exact h

theorem newtonRow_spec (xs : List ℚ) (i : ℕ) (yi : ℚ) (prevRow : List ℚ) (g : ℕ → ℚ)
    (h0 : g 0 = yi)
    (hrec : ∀ j, ∀ hj : j < prevRow.length, g (j + 1) =
      (prevRow[j] - g j) / (xs.getD (i - 1 - j) 0 - xs.getD i 0)) :
    newtonRow xs i yi prevRow = (List.range (prevRow.length + 1)).map g := by
  rw [newtonRow, List.enum]
  rw [newtonRow_go xs i g prevRow 0 [yi] (by simp [h0]) ?_]
  · rw [List.range_eq_range', List.range'_succ, List.map_cons, h0, List.singleton_append,
      Nat.zero_add]
  · intro j hj
    have h := hrec j hj
    simpa using h

theorem newtonRow_ddRowSem (xs : List ℚ) (ps : List (ℚ × ℚ)) (q : ℚ × ℚ)
    (hnd : ((ps ++ [q]).map Prod.fst).Nodup)
    (hxs : ∀ m, m ≤ ps.length → xs.getD m 0 = ((ps ++ [q]).map Prod.fst).getD m 0) :
    newtonRow xs ps.length q.2 (ddRowSem ps) = ddRowSem (ps ++ [q]) := by
  have hrowlen : (ddRowSem ps).length = ps.length := by
    simp [ddRowSem]
  have hql : ps.length < (ps ++ [q]).length := by simp
  have hq : (ps ++ [q])[ps.length] = q :=
    List.getElem_concat_length ps q ps.length rfl _
  have hxq : xs.getD ps.length 0 = q.1 := by
    rw [hxs ps.length (le_refl _),
      getD_eq_getElem _ (by
        simp only [List.length_map, List.length_append, List.length_cons, List.length_nil]
        omega),
      List.getElem_map, hq]
  have hdropq : ∀ m, m ≤ ps.length → (ps ++ [q]).drop m = ps.drop m ++ [q] := by
    intro m hm
    rw [List.drop_append_eq_append_drop, show m - ps.length = 0 from by omega, List.drop_zero]
  have h0 : ddSym ((ps ++ [q]).drop (ps.length - 0)) = q.2 := by
    simp only [Nat.sub_zero]
    rw [List.drop_left, ddSym_singleton]
  have hrec : ∀ j, ∀ hj : j < (ddRowSem ps).length,
      ddSym ((ps ++ [q]).drop (ps.length - (j + 1))) =
        ((ddRowSem ps)[j] - ddSym ((ps ++ [q]).drop (ps.length - j))) /
          (xs.getD (ps.length - 1 - j) 0 - xs.getD ps.length 0) := by
    intro j hj
    have hjN : j < ps.length := by
      rw [hrowlen] at hj
      exact hj
    have hprev : (ddRowSem ps)[j] = ddSym (ps.drop (ps.length - 1 - j)) := by
      simp only [ddRowSem]
      rw [List.getElem_map, List.getElem_range]
    have hsplit1 : ps.drop (ps.length - 1 - j) =
        ps[ps.length - 1 - j] :: ps.drop (ps.length - j) := by
      rw [List.drop_eq_getElem_cons (show ps.length - 1 - j < ps.length by omega)]
      congr 2
      all_goals omega
    have hxa : xs.getD (ps.length - 1 - j) 0 = (ps[ps.length - 1 - j]).1 := by
      rw [hxs (ps.length - 1 - j) (by omega),
        getD_eq_getElem _ (by
          simp only [List.length_map, List.length_append, List.length_cons, List.length_nil]
          omega),
        List.getElem_map,
        List.getElem_append_left (show ps.length - 1 - j < ps.length by omega)]
    have hnd2 : ((ps[ps.length - 1 - j] ::
        (ps.drop (ps.length - j) ++ [q])).map Prod.fst).Nodup := by
      have hsub : List.Sublist
          (ps[ps.length - 1 - j] :: (ps.drop (ps.length - j) ++ [q]))
          (ps ++ [q]) := by
        rw [← List.cons_append, ← hsplit1, ← hdropq _ (by omega)]
        exact List.drop_sublist _ _
      exact hnd.sublist (hsub.map Prod.fst)
    rw [hprev]
    rw [show ps.length - (j + 1) = ps.length - 1 - j from by omega]
    rw [hdropq (ps.length - 1 - j) (by omega)]
    rw [hdropq (ps.length - j) (by omega)]
    rw [hsplit1, List.cons_append]
    rw [ddSym_rec _ _ _ hnd2, hxa, hxq]
  rw [newtonRow_spec xs ps.length q.2 (ddRowSem ps)
    (fun j => ddSym ((ps ++ [q]).drop (ps.length - j))) h0 hrec]
  rw [hrowlen, ddRowSem,
    show (ps ++ [q]).length = ps.length + 1 from by simp]
  apply List.map_congr_left
  intro j hj
  rw [show ps.length + 1 - 1 - j = ps.length - j from by omega]

theorem getD_take (L : List ℚ) (k m : ℕ) (h1 : m < k) (h2 : m < L.length) :
    (L.take k).getD m 0 = L.getD m 0 := by
  rw [getD_eq_getElem _ (by rw [List.length_take]; omega),
    getD_eq_getElem _ h2, List.getElem_take]

theorem ddRowSem_getLastD (ps : List (ℚ × ℚ)) (h : ps ≠ []) :
    (ddRowSem ps).getLastD 0 = ddSym ps := by
  have hpos : 0 < ps.length := List.length_pos.2 h
  have hlen : (ddRowSem ps).length = ps.length := by
    simp [ddRowSem]
  have hne : ddRowSem ps ≠ [] := by
    intro h0
    rw [h0] at hlen
    simp only [List.length_nil] at hlen
    omega
  rw [getLastD_eq_getElem _ (by omega) 0]
  simp only [ddRowSem, List.getElem_map, List.getElem_range, List.length_map,
    List.length_range]
  rw [show ps.length - 1 - (ps.length - 1) = 0 from by omega, List.drop_zero]

theorem newtonTable_sem (pts : List (ℚ × ℚ)) (hnd : (pts.map Prod.fst).Nodup) :
    ∀ n, n ≤ pts.length →
      newtonTable (pts.map Prod.fst) (pts.map Prod.snd) n =
        (coefSem (pts.take n), ddRowSem (pts.take n)) := by
  intro n
  induction n with
  | zero =>
    intro h
    simp [newtonTable, coefSem, ddRowSem]
  | succ n ih =>
    intro hn
    have hlt : n < pts.length := by omega
    have htakelen : (pts.take n).length = n := by
      rw [List.length_take]
      omega
    have htake : pts.take (n + 1) = pts.take n ++ [pts[n]] := by
      rw [List.take_succ, List.getElem?_eq_getElem hlt]
      rfl
    have hndq : ((pts.take n ++ [pts[n]]).map Prod.fst).Nodup := by
      rw [← htake]
      exact hnd.sublist ((List.take_sublist _ _).map Prod.fst)
    have hy : (pts.map Prod.snd).getD n 0 = pts[n].2 := by
      rw [getD_eq_getElem _ (by rw [List.length_map]; omega), List.getElem_map]
    have hxsh : ∀ m, m ≤ (pts.take n).length →
        (pts.map Prod.fst).getD m 0 =
          ((pts.take n ++ [pts[n]]).map Prod.fst).getD m 0 := by
      intro m hm
      rw [htakelen] at hm
      rw [← htake, List.map_take, getD_take (pts.map Prod.fst) (n + 1) m (by omega)
        (by rw [List.length_map]; omega)]
    have h2 := newtonRow_ddRowSem (pts.map Prod.fst) (pts.take n) pts[n] hndq hxsh
    rw [htakelen] at h2
    have hrow : newtonRow (pts.map Prod.fst) n ((pts.map Prod.snd).getD n 0)
        (ddRowSem (pts.take n)) = ddRowSem (pts.take (n + 1)) := by
      rw [hy, htake]
      exact h2
    rw [newtonTable_succ, ih (by omega)]
    dsimp only
    have hne2 : pts.take n ++ [pts[n]] ≠ [] := by
      intro h0
      have hl := congrArg List.length h0
      rw [List.length_append] at hl
      simp at hl
    rw [hrow, htake, ddRowSem_getLastD (pts.take n ++ [pts[n]]) hne2, coefSem_concat]

instance : IsTotal (ℚ × ℚ) (fun p q => p.1 ≤ q.1) :=
  ⟨fun a b => le_total a.1 b.1⟩

instance : IsTrans (ℚ × ℚ) (fun p q => p.1 ≤ q.1) :=
  ⟨fun _ _ _ h1 h2 => le_trans h1 h2⟩

instance : IsTotal (ℚ × ℚ × ℚ) (fun p q => p.1 ≤ q.1) :=
  ⟨fun a b => le_total a.1 b.1⟩

instance : IsTrans (ℚ × ℚ × ℚ) (fun p q => p.1 ≤ q.1) :=
  ⟨fun _ _ _ h1 h2 => le_trans h1 h2⟩

theorem sortByFst_perm (pts : List (ℚ × ℚ)) : (sortByFst pts).Perm pts :=
  List.perm_insertionSort _ pts

theorem sortByFst_sorted (pts : List (ℚ × ℚ)) :
    (sortByFst pts).Sorted (fun p q => p.1 ≤ q.1) :=
  List.sorted_insertionSort _ pts

theorem sortByFst3_perm (ts : List (ℚ × ℚ × ℚ)) : (sortByFst3 ts).Perm ts :=
  List.perm_insertionSort _ ts

theorem sortByFst3_sorted (ts : List (ℚ × ℚ × ℚ)) :
    (sortByFst3 ts).Sorted (fun p q => p.1 ≤ q.1) :=
  List.sorted_insertionSort _ ts

theorem sorted_fst_map {α : Type} (f : α → ℚ) {l : List α}
    (hs : l.Sorted (fun p q => f p ≤ f q)) (hnd : (l.map f).Nodup) :
    (l.map f).Sorted (· < ·) := by
  have hle : (l.map f).Pairwise (· ≤ ·) := by
    rw [List.pairwise_map]
    exact hs
  have hne : (l.map f).Pairwise (· ≠ ·) := hnd
  exact (hle.and hne).imp (fun h => lt_of_le_of_ne h.1 h.2)

theorem zip_self_map {α : Type} (l : List α) : l.zip l = l.map (fun a => (a, a)) := by
  induction l with
  | nil => rfl
  | cons a t ih => rw [List.zip_cons_cons, ih, List.map_cons]

theorem map_fst_zip_map {α β : Type} (g : α → ℚ) :
    ∀ (l1 : List α) (l2 : List β), l2.length = l1.length →
      l1.map g = (l1.zip l2).map (fun p => g p.1)
  | [], [], _ => rfl
  | [], _ :: _, h => by simp at h
  | _ :: _, [], h => by simp at h
  | a :: l1, b :: l2, h => by
    rw [List.map_cons, List.zip_cons_cons, List.map_cons]
    rw [map_fst_zip_map g l1 l2 (by simpa using h)]

theorem lag_call_eq_lpEval {L : Lagrange} (h : LagInv L) (t : ℚ) :
    L.call t = lpEval (L.xs.zip L.ys) t := by
  obtain ⟨hnd, hlen, hN, hws⟩ := h
  have hfst : (L.xs.zip L.ys).map Prod.fst = L.xs :=
    List.map_fst_zip _ _ (by omega)
  have hndz : ((L.xs.zip L.ys).map Prod.fst).Nodup := by
    rw [hfst]
    exact hnd
  rw [Lagrange.call]
  split
  · next hmem =>
    have hidx : listIndexOf L.xs t < L.xs.length := by
      rw [listIndexOf]
      exact List.indexOf_lt_length.2 hmem
    have hzlen : listIndexOf L.xs t < (L.xs.zip L.ys).length := by
      rw [List.length_zip]
      omega
    have h1 : (L.xs.zip L.ys)[listIndexOf L.xs t].1 = t := by
      simp only [List.getElem_zip]
      exact List.getElem_indexOf hidx
    have hnod := lpEval_node hndz hzlen
    rw [h1] at hnod
    rw [hnod]
    rw [getD_eq_getElem _ (by omega)]
    rw [List.getElem_zip]
  · next hmem =>
    have hws2 : L.ws = (L.xs.zip L.ys).map (fun p => invW L.xs p.1) := by
      rw [hws]
      exact map_fst_zip_map (invW L.xs) L.xs L.ys hlen
    rw [lpEval, hfst]
    rw [hws2, List.zip_map_left, zip_self_map, List.map_map, List.map_map]
    rw [← List.sum_map_mul_left]
    apply congrArg List.sum
    apply List.map_congr_left
    intro p hp
    simp only [Function.comp, Prod.map]
    have hpx : p.1 ∈ L.xs := by
      rw [← hfst]
      exact List.mem_map.2 ⟨p, hp, rfl⟩
    have htp : t - p.1 ≠ 0 := sub_ne_zero.2 (fun he => hmem (he ▸ hpx))
    have hphi : phi t L.xs = (t - p.1) * phi t (L.xs.erase p.1) :=
      (phi_perm t (List.perm_cons_erase hpx)).trans (phi_cons _ _ _)
    rw [hphi]
    field_simp
    ring

theorem newton_call_eq_lpEval {pts : List (ℚ × ℚ)} {N : Newton}
    (h : newtonInit pts = .ok N) (t : ℚ) :
    N.call t = lpEval pts t := by
  obtain ⟨hlen, hnd, rfl⟩ := newtonInit_ok_iff.1 h
  have ht := newtonTable_sem pts hnd pts.length (le_refl _)
  rw [List.take_length] at ht
  have hcoef : (newtonTable (pts.map Prod.fst) (pts.map Prod.snd) pts.length).1 =
      coefSem pts := by
    rw [ht]
  have hl : (newtonTable (pts.map Prod.fst) (pts.map Prod.snd) pts.length).1.length =
      (pts.map Prod.fst).length := by
    rw [hcoef, List.length_map]
    simp [coefSem]
  have hn2 : 1 ≤ (pts.map Prod.fst).length := by
    rw [List.length_map]
    omega
  rw [call_eq_npSum ⟨pts.map Prod.fst, pts.map Prod.snd,
    (newtonTable (pts.map Prod.fst) (pts.map Prod.snd) pts.length).1,
    (newtonTable (pts.map Prod.fst) (pts.map Prod.snd) pts.length).2⟩ t hl hn2]
  dsimp only
  rw [hcoef, npSum_coefSem hnd t]

theorem zip_maps_self (pts : List (ℚ × ℚ)) :
    (pts.map Prod.fst).zip (pts.map Prod.snd) = pts := by
  rw [List.zip_map' Prod.fst Prod.snd]
  simp

/-- Claim C3: the Lagrange engine and the Newton engine constructed from the
same list of at least two samples with pairwise-distinct x-values return the
same value at every query point (exactly, in the exact-arithmetic model). -/
theorem lagrange_newton_agree {pts : List (ℚ × ℚ)} {L : Lagrange} {N : Newton}
    (hL : lagInit pts = .ok L) (hN : newtonInit pts = .ok N) (t : ℚ) :
    L.call t = N.call t := by
  have hLag := lag_call_eq_lpEval (lagInit_inv hL) t
  have hNew := newton_call_eq_lpEval hN t
  obtain ⟨-, -, rfl⟩ := lagInit_ok_iff.1 hL
  rw [hLag, hNew]
  dsimp only
  rw [zip_maps_self]

/-- Witness for C3: the three-sample engines of the running example agree at
the query 3/2 (both return 23/8). -/
theorem lagrange_newton_agree_witness :
    lagInit [((0 : ℚ), (1 : ℚ)), (1, 3), (2, 2)] =
      .ok ⟨[0, 1, 2], [1, 3, 2], [1/2, -1, 1/2]⟩ ∧
    newtonInit [((0 : ℚ), (1 : ℚ)), (1, 3), (2, 2)] =
      .ok ⟨[0, 1, 2], [1, 3, 2], [1, 2, -3/2], [2, -1, -3/2]⟩ ∧
    Lagrange.call ⟨[0, 1, 2], [1, 3, 2], [1/2, -1, 1/2]⟩ (3/2) =
      Newton.call ⟨[0, 1, 2], [1, 3, 2], [1, 2, -3/2], [2, -1, -3/2]⟩ (3/2) :=
  ⟨by decide, by decide,
    @lagrange_newton_agree [((0 : ℚ), (1 : ℚ)), (1, 3), (2, 2)]
      ⟨[0, 1, 2], [1, 3, 2], [1/2, -1, 1/2]⟩
      ⟨[0, 1, 2], [1, 3, 2], [1, 2, -3/2], [2, -1, -3/2]⟩
      (by decide) (by decide) (3/2)⟩

theorem linearInit_ok_iff {pts : List (ℚ × ℚ)} {s : LinearI} :
    linearInit pts = .ok s ↔ 1 ≤ pts.length ∧
      s = ⟨(sortByFst pts).map Prod.fst, (sortByFst pts).map Prod.snd⟩ := by
  have hlen : ((sortByFst pts).map Prod.fst).length = pts.length := by
    rw [List.length_map, (sortByFst_perm pts).length_eq]
  simp only [linearInit]
  split
  · next h =>
    rw [hlen] at h
    simp only [reduceCtorEq, false_iff]
    intro hc
    exact absurd hc.1 (by omega)
  · next h =>
    rw [hlen] at h
    constructor
    · intro he
      injection he with he
      exact ⟨by omega, he.symm⟩
    · rintro ⟨-, rfl⟩
      rfl

theorem hermiteInit_ok_iff {xs f fprime : List ℚ} {s : Hermite} :
    hermiteInit xs f fprime = .ok s ↔ 1 ≤ xs.length ∧
      s = ⟨(sortByFst3 (xs.zip (f.zip fprime))).map (fun z => z.1),
           (sortByFst3 (xs.zip (f.zip fprime))).map (fun z => z.2.1),
           (sortByFst3 (xs.zip (f.zip fprime))).map (fun z => z.2.2)⟩ := by
  simp only [hermiteInit]
  split
  · next h =>
    simp only [reduceCtorEq, false_iff]
    intro hc
    exact absurd hc.1 (by omega)
  · next h =>
    constructor
    · intro he
      injection he with he
      exact ⟨by omega, he.symm⟩
    · rintro ⟨-, rfl⟩
      rfl

theorem linearInit_node {pts : List (ℚ × ℚ)} {s : LinearI}
    (h : linearInit pts = .ok s) (hnd : (pts.map Prod.fst).Nodup)
    {i : ℕ} (hi : i < s.xs.length) :
    s.call (s.xs[i]) = s.ys.getD i 0 := by
  obtain ⟨h1, rfl⟩ := linearInit_ok_iff.1 h
  have hperm : ((sortByFst pts).map Prod.fst).Perm (pts.map Prod.fst) :=
    (sortByFst_perm pts).map Prod.fst
  have hnd2 : ((sortByFst pts).map Prod.fst).Nodup := hperm.nodup_iff.2 hnd
  have hsorted : ((sortByFst pts).map Prod.fst).Sorted (· < ·) :=
    sorted_fst_map Prod.fst (sortByFst_sorted pts) hnd2
  exact LinearI.call_at_node hsorted (by simp) hi

theorem hermiteInit_node {xs f fprime : List ℚ} {s : Hermite}
    (h : hermiteInit xs f fprime = .ok s) (hnd : xs.Nodup)
    (hf : f.length = xs.length) (hfp : fprime.length = xs.length)
    {i : ℕ} (hi : i < s.xs.length) :
    s.call (s.xs[i]) = s.ys.getD i 0 := by
  obtain ⟨h1, rfl⟩ := hermiteInit_ok_iff.1 h
  have hmapeq : (sortByFst3 (xs.zip (f.zip fprime))).map (fun z => z.1) =
      (sortByFst3 (xs.zip (f.zip fprime))).map Prod.fst :=
    List.map_congr_left (fun _ _ => rfl)
  have hfst : (xs.zip (f.zip fprime)).map Prod.fst = xs := by
    refine List.map_fst_zip _ _ ?_
    rw [List.length_zip]
    omega
  have hperm0 : ((sortByFst3 (xs.zip (f.zip fprime))).map Prod.fst).Perm
      ((xs.zip (f.zip fprime)).map Prod.fst) :=
    (sortByFst3_perm _).map Prod.fst
  have hperm : ((sortByFst3 (xs.zip (f.zip fprime))).map Prod.fst).Perm xs := by
    rw [hfst] at hperm0
    exact hperm0
  have hnd2 : ((sortByFst3 (xs.zip (f.zip fprime))).map Prod.fst).Nodup :=
    hperm.nodup_iff.2 hnd
  have hsorted : ((sortByFst3 (xs.zip (f.zip fprime))).map Prod.fst).Sorted (· < ·) :=
    sorted_fst_map Prod.fst (sortByFst3_sorted _) hnd2
  have hsorted2 : ((sortByFst3 (xs.zip (f.zip fprime))).map (fun z => z.1)).Sorted (· < ·) := by
    rw [hmapeq]
    exact hsorted
  exact Hermite.call_at_node_h hsorted2 (by simp) hi

theorem lagInit_node {pts : List (ℚ × ℚ)} {L : Lagrange}
    (h : lagInit pts = .ok L) {i : ℕ} (hi : i < L.xs.length) :
    L.call (L.xs[i]) = L.ys.getD i 0 := by
  obtain ⟨hnd, hlen, hN, hws⟩ := lagInit_inv h
  rw [Lagrange.call]
  rw [if_pos (List.getElem_mem hi)]
  simp only [listIndexOf]
  rw [List.indexOf_getElem hnd i hi]

theorem newtonInit_node {pts : List (ℚ × ℚ)} {N : Newton}
    (h : newtonInit pts = .ok N) {i : ℕ} (hi : i < N.xs.length) :
    N.call (N.xs[i]) = N.ys.getD i 0 := by
  have hcall := newton_call_eq_lpEval h (N.xs[i])
  obtain ⟨hlen, hnd, rfl⟩ := newtonInit_ok_iff.1 h
  have hil : i < pts.length := by
    have := hi
    simp only [List.length_map] at this
    exact this
  have him : i < (pts.map Prod.fst).length := by simpa using hil
  have hx : (pts.map Prod.fst)[i] = pts[i].1 := List.getElem_map _
  rw [hcall]
  dsimp only
  rw [hx]
  have hnode := lpEval_node hnd hil
  rw [hnode, getD_eq_getElem _ (by simpa using hil), List.getElem_map]

/-- Claim C4: for every validly constructed engine — Lagrange, Newton, Linear
and Hermite (the latter two from inputs with pairwise-distinct x and aligned
arrays, their construction precondition) — evaluating at any stored node x
returns that node's stored y, exactly in the exact-arithmetic model. -/
theorem engines_node_evaluation :
    (∀ (pts : List (ℚ × ℚ)) (L : Lagrange), lagInit pts = .ok L →
      ∀ i, ∀ hi : i < L.xs.length, L.call (L.xs[i]) = L.ys.getD i 0) ∧
    (∀ (pts : List (ℚ × ℚ)) (N : Newton), newtonInit pts = .ok N →
      ∀ i, ∀ hi : i < N.xs.length, N.call (N.xs[i]) = N.ys.getD i 0) ∧
    (∀ (pts : List (ℚ × ℚ)) (s : LinearI), linearInit pts = .ok s →
      (pts.map Prod.fst).Nodup →
      ∀ i, ∀ hi : i < s.xs.length, s.call (s.xs[i]) = s.ys.getD i 0) ∧
    (∀ (xs f fprime : List ℚ) (s : Hermite), hermiteInit xs f fprime = .ok s →
      xs.Nodup → f.length = xs.length → fprime.length = xs.length →
      ∀ i, ∀ hi : i < s.xs.length, s.call (s.xs[i]) = s.ys.getD i 0) :=
  ⟨fun _ _ h i hi => lagInit_node h hi,
   fun _ _ h i hi => newtonInit_node h hi,
   fun _ _ h hnd i hi => linearInit_node h hnd hi,
   fun _ _ _ _ h hnd hf hfp i hi => hermiteInit_node h hnd hf hfp hi⟩

/-- Witness for C4: concrete node evaluations on all four engines. -/
theorem engines_node_evaluation_witness :
    Lagrange.call ⟨[0, 1, 2], [1, 3, 2], [1/2, -1, 1/2]⟩ 1 = 3 ∧
    Newton.call ⟨[0, 1, 2], [1, 3, 2], [1, 2, -3/2], [2, -1, -3/2]⟩ 1 = 3 ∧
    LinearI.call ⟨[0, 10], [0, 10]⟩ 10 = 10 ∧
    Hermite.call ⟨[0, 1], [2, 3], [4, 5]⟩ 1 = 3 :=
  ⟨engines_node_evaluation.1 [((0 : ℚ), (1 : ℚ)), (1, 3), (2, 2)]
      ⟨[0, 1, 2], [1, 3, 2], [1/2, -1, 1/2]⟩ (by decide) 1 (by decide),
   engines_node_evaluation.2.1 [((0 : ℚ), (1 : ℚ)), (1, 3), (2, 2)]
      ⟨[0, 1, 2], [1, 3, 2], [1, 2, -3/2], [2, -1, -3/2]⟩ (by decide) 1 (by decide),
   engines_node_evaluation.2.2.1 [((0 : ℚ), (0 : ℚ)), (10, 10)]
      ⟨[0, 10], [0, 10]⟩ (by decide) (by decide) 1 (by decide),
   engines_node_evaluation.2.2.2 [0, 1] [2, 3] [4, 5]
      ⟨[0, 1], [2, 3], [4, 5]⟩ (by decide) (by decide) (by decide) (by decide) 1 (by decide)⟩
